import Mathlib

/-!
Verification of the bolt parser front end (`bolt/parse.py`).

The development shallowly embeds the parts of the source that the claims
talk about: the scope tables carried on the token stream, the assignment
target parser, the statement parser's pending-identifier flushing, the
binary expression parsers and their folding, the primary parser's call and
subscript argument loop, the if/elif/else lowering pass, function signature
default scopes, the `UndefinedIdentifier` message, the import statement
handler, and `check_final_expression`.

Machinery external to the repository (the `tokenstream` library, `difflib`,
`mecha` helpers) is modelled abstractly: token streams become explicit
lists or function parameters, and `get_close_matches` becomes an abstract
list of matches handed to the message builder.
-/

namespace BoltParse

/-! ## Errors

`InvalidSyntax` and its subclass `UndefinedIdentifier` (which carries the
offending name, the set of known identifiers it was compared against, and
the accumulated notes). -/

inductive ParseError where
  | invalidSyntax (message : String)
  | undefinedIdentifier (name : String) (known : Finset String) (notes : List String)
deriving DecidableEq

instance {ε α : Type} [DecidableEq ε] [DecidableEq α] : DecidableEq (Except ε α) := fun x y =>
  match x, y with
  | .error a, .error b =>
    if h : a = b then isTrue (h ▸ rfl) else isFalse (by simp [h])
  | .error _, .ok _ => isFalse (by simp)
  | .ok _, .error _ => isFalse (by simp)
  | .ok a, .ok b =>
    if h : a = b then isTrue (h ▸ rfl) else isFalse (by simp [h])

/-! ## C8: the `UndefinedIdentifier.__str__` message

`UndefinedIdentifier.__str__` builds
`f"Identifier {self.token.value!r} is not defined."` and, when
`get_close_matches` returns a non-empty list, appends a
`" Did you mean ...?"` suggestion.  `get_close_matches` comes from
`difflib` (outside this repository), so the list of close matches is a
parameter of the embedding. -/

/-- Python `repr` of an identifier-like string: identifiers match
`[a-zA-Z_][a-zA-Z0-9_]*` and therefore contain no characters that `repr`
would escape, so `repr` surrounds them with single quotes. -/
def pyRepr (s : String) : String := "'" ++ s ++ "'"

/-- Python `sep.join(parts)`. -/
def joinWithSep (sep : String) : List String → String
  | [] => ""
  | [a] => a
  | a :: b :: rest => a ++ sep ++ joinWithSep sep (b :: rest)

/-- Translation of `UndefinedIdentifier.__str__` (parse.py lines 380-394),
with the `difflib.get_close_matches` result passed in as `closeMatches`. -/
def undefinedIdentifierMessage (name : String) (closeMatches : List String) : String :=
  let msg := "Identifier " ++ pyRepr name ++ " is not defined."
  match closeMatches.map pyRepr with
  | [] => msg
  | [m] => msg ++ " Did you mean " ++ m ++ "?"
  | ms =>
    let suggestion :=
      joinWithSep ", "
        (ms.dropLast.dropLast ++ [ms.dropLast.getLastD "" ++ " or " ++ ms.getLastD ""])
    msg ++ " Did you mean " ++ suggestion ++ "?"

/-- The join described by the specification: quoted suggestions joined with
a comma-space between all but the final pair and an " or " between the
final two. -/
def specSuggestionJoin : List String → String
  | [] => ""
  | [a] => a
  | [a, b] => a ++ " or " ++ b
  | a :: b :: c :: rest => a ++ ", " ++ specSuggestionJoin (b :: c :: rest)

lemma getLastD_cons_of_ne_nil (a : String) {l : List String} (h : l ≠ []) :
    (a :: l).getLastD "" = l.getLastD "" := by
  rw [List.getLastD_eq_getLast?, List.getLastD_eq_getLast?]
  cases l with
  | nil => exact absurd rfl h
  | cons x xs => rw [List.getLast?_cons_cons]

lemma joinWithSep_cons_of_ne_nil (sep a : String) {l : List String} (h : l ≠ []) :
    joinWithSep sep (a :: l) = a ++ sep ++ joinWithSep sep l := by
  cases l with
  | nil => exact absurd rfl h
  | cons x xs => rfl

lemma joinWithSep_eq_specSuggestionJoin :
    ∀ l : List String, 2 ≤ l.length →
      joinWithSep ", "
        (l.dropLast.dropLast ++ [l.dropLast.getLastD "" ++ " or " ++ l.getLastD ""]) =
        specSuggestionJoin l
  | [], h => by simp at h
  | [_], h => by simp at h
  | [a, b], _ => by simp [joinWithSep, specSuggestionJoin]
  | a :: b :: c :: rest, _ => by
    have ih := joinWithSep_eq_specSuggestionJoin (b :: c :: rest) (by simp)
    have ht : (b :: c :: rest) ≠ [] := by simp
    have htd : (b :: c :: rest).dropLast ≠ [] := by
      rw [List.dropLast_cons_of_ne_nil (by simp)]
      simp
    rw [List.dropLast_cons_of_ne_nil ht,
      List.dropLast_cons_of_ne_nil htd,
      getLastD_cons_of_ne_nil _ htd,
      getLastD_cons_of_ne_nil _ ht,
      List.cons_append,
      joinWithSep_cons_of_ne_nil _ _ (by simp),
      ih]
    rfl

/-- C8: the message of an `UndefinedIdentifier` for offending name `X` is
exactly `Identifier 'X' is not defined.`; when fuzzy matching yields close
matches it appends a question of the form ` Did you mean ...?` where the
quoted suggestions are joined with `, ` between all but the final pair and
` or ` between the final two (a single match yields ` Did you mean 'A'?`). -/
theorem undefined_identifier_message_format (name : String) (ms : List String) :
    (ms = [] →
      undefinedIdentifierMessage name ms =
        "Identifier " ++ "'" ++ name ++ "'" ++ " is not defined.") ∧
    (ms ≠ [] →
      undefinedIdentifierMessage name ms =
        "Identifier " ++ "'" ++ name ++ "'" ++ " is not defined." ++ " Did you mean " ++
          specSuggestionJoin (ms.map pyRepr) ++ "?") := by
  constructor
  · rintro rfl
    rfl
  · intro hne
    match ms with
    | [] => exact absurd rfl hne
    | [a] => rfl
    | a :: b :: rest =>
      have hlen : 2 ≤ ((a :: b :: rest).map pyRepr).length := by simp
      simp only [undefinedIdentifierMessage, List.map]
      rw [show ((pyRepr a :: pyRepr b :: rest.map pyRepr)) =
        ((a :: b :: rest).map pyRepr) by simp]
      rw [joinWithSep_eq_specSuggestionJoin _ hlen]
      rfl

/-- Witness for C8: a concrete name and two close matches. -/
theorem undefined_identifier_message_format_witness :
    (["abc", "abd"] ≠ ([] : List String)) ∧
    undefinedIdentifierMessage "abx" ["abc", "abd"] =
      "Identifier " ++ "'" ++ "abx" ++ "'" ++ " is not defined." ++ " Did you mean " ++
        specSuggestionJoin (["abc", "abd"].map pyRepr) ++ "?" :=
  ⟨by decide, (undefined_identifier_message_format "abx" ["abc", "abd"]).2 (by decide)⟩

/-! ## Scope tables

The token stream carries four scope tables in `stream.data`:
`identifiers` and `pending_identifiers` (Python sets, modelled as
`Finset String`) and `identifiers_storage` / `pending_identifiers_storage`
(Python dicts, modelled as insertion-ordered association lists). -/

structure ScopeState where
  identifiers : Finset String
  pending_identifiers : Finset String
  identifiers_storage : List (String × String)
  pending_identifiers_storage : List (String × String)
deriving DecidableEq

/-- Python `d[k] = v`: update the value in place when the key is present,
append a new entry otherwise. -/
def mapSet : List (String × String) → String → String → List (String × String)
  | [], k, v => [(k, v)]
  | (a, b) :: t, k, v => if a = k then (a, v) :: t else (a, b) :: mapSet t k v

/-- Python `d.update(d2)`: assign every entry of `d2` into `d` in order. -/
def mapUpdate (m : List (String × String)) : List (String × String) → List (String × String)
  | [] => m
  | (k, v) :: rest => mapUpdate (mapSet m k v) rest

/-- Python `d.setdefault(k, v)`: insert only when the key is absent. -/
def mapSetdefault (m : List (String × String)) (k v : String) : List (String × String) :=
  if (m.lookup k).isSome then m else m ++ [(k, v)]

/-- Python `set(d)` on a dict: the set of its keys. -/
def storageKeys (m : List (String × String)) : Finset String := (m.map Prod.fst).toFinset

lemma mapSet_lookup_self (m : List (String × String)) (k v : String) :
    (mapSet m k v).lookup k = some v := by
  induction m with
  | nil => simp [mapSet, List.lookup]
  | cons p t ih =>
    obtain ⟨a, b⟩ := p
    by_cases hak : a = k
    · subst hak
      simp [mapSet, List.lookup]
    · have hka : (k == a) = false := by
        simp only [beq_eq_false_iff_ne, ne_eq]
        exact fun hc => hak hc.symm
      simp [mapSet, hak, List.lookup, hka, ih]

lemma mapSet_lookup_ne (m : List (String × String)) (k v k' : String) (h : k' ≠ k) :
    (mapSet m k v).lookup k' = m.lookup k' := by
  induction m with
  | nil =>
    have hk : (k' == k) = false := by simp only [beq_eq_false_iff_ne, ne_eq]; exact h
    simp [mapSet, List.lookup, hk]
  | cons p t ih =>
    obtain ⟨a, b⟩ := p
    by_cases hak : a = k
    · subst hak
      have hk : (k' == a) = false := by simp only [beq_eq_false_iff_ne, ne_eq]; exact h
      simp [mapSet, List.lookup, hk]
    · simp only [mapSet, if_neg hak]
      cases hka : (k' == a) <;> simp [List.lookup, hka, ih]

lemma mapSet_keys_mem (m : List (String × String)) (k v x : String) :
    x ∈ (mapSet m k v).map Prod.fst ↔ x ∈ m.map Prod.fst ∨ x = k := by
  induction m with
  | nil => simp [mapSet]
  | cons p t ih =>
    obtain ⟨a, b⟩ := p
    by_cases hak : a = k
    · subst hak
      simp [mapSet]
      tauto
    · simp [mapSet, hak, ih]
      tauto

lemma mapSet_keys_nodup (m : List (String × String)) (k v : String)
    (h : (m.map Prod.fst).Nodup) : ((mapSet m k v).map Prod.fst).Nodup := by
  induction m with
  | nil => simp [mapSet]
  | cons p t ih =>
    obtain ⟨a, b⟩ := p
    simp only [List.map_cons, List.nodup_cons] at h
    by_cases hak : a = k
    · subst hak
      have hset : mapSet ((a, b) :: t) a v = (a, v) :: t := by simp [mapSet]
      rw [hset]
      simp only [List.map_cons, List.nodup_cons]
      exact h
    · simp only [mapSet, if_neg hak, List.map_cons, List.nodup_cons]
      constructor
      · rw [mapSet_keys_mem]
        push_neg
        exact ⟨h.1, hak⟩
      · exact ih h.2

lemma mapUpdate_lookup_of_not_mem (m m2 : List (String × String)) (k : String)
    (h : k ∉ m2.map Prod.fst) : (mapUpdate m m2).lookup k = m.lookup k := by
  induction m2 generalizing m with
  | nil => simp [mapUpdate]
  | cons p t ih =>
    obtain ⟨a, b⟩ := p
    simp only [List.map_cons, List.mem_cons] at h
    push_neg at h
    simp only [mapUpdate]
    rw [ih _ h.2, mapSet_lookup_ne _ _ _ _ h.1]

lemma mapUpdate_lookup_of_lookup (m m2 : List (String × String)) (k v : String)
    (hnd : (m2.map Prod.fst).Nodup) (h : m2.lookup k = some v) :
    (mapUpdate m m2).lookup k = some v := by
  induction m2 generalizing m with
  | nil => simp [List.lookup] at h
  | cons p t ih =>
    obtain ⟨a, b⟩ := p
    simp only [List.map_cons, List.nodup_cons] at hnd
    by_cases hak : a = k
    · subst hak
      simp [List.lookup] at h
      subst h
      simp only [mapUpdate]
      rw [mapUpdate_lookup_of_not_mem _ _ _ hnd.1, mapSet_lookup_self]
    · have h1 : (k == a) = false := by
        simp only [beq_eq_false_iff_ne, ne_eq]
        exact fun hc => hak hc.symm
      simp only [List.lookup, h1] at h
      simp only [mapUpdate]
      exact ih _ hnd.2 h

/-! ## C4 (and shared by C2, C9): `AssignmentTargetParser`

`AssignmentTargetParser.__call__` (parse.py lines 611-648) consumes a
comma-separated run of identifier tokens.  The token stream fragment it
consumes is modelled as the list of identifier token values; with
`allow_multiple` a comma is present exactly between two consecutive names
of the list. -/

inductive AstTarget where
  | identifier (value : String) (rebind : Bool)
  | unpack (targets : List (String × Bool))
deriving DecidableEq

/-- The note attached when an augmented assignment targets a defined name
without a storage class. -/
def closureNote (n : String) : String :=
  "Use 'global " ++ n ++ "' or 'nonlocal " ++ n ++
    "' to mutate the variable defined in outer scope."

/-- Lines 627-629: add the name to `pending_identifiers` and default its
pending storage class to `"local"` when it has no storage entry yet. -/
def pendingAdd (s : ScopeState) (n : String) : ScopeState :=
  { s with
    pending_identifiers := insert n s.pending_identifiers,
    pending_identifiers_storage :=
      if (s.identifiers_storage.lookup n).isSome then s.pending_identifiers_storage
      else mapSet s.pending_identifiers_storage n "local" }

/-- The `while True` loop of `AssignmentTargetParser.__call__`: one
iteration per identifier token. -/
def assignmentTargetLoop (allowUndefined allowMultiple : Bool) :
    ScopeState → List String → Except ParseError (List (String × Bool) × ScopeState)
  | _, [] => .error (.invalidSyntax "Expected identifier.")
  | s, n :: rest =>
    let is_defined := decide (n ∈ s.identifiers)
    let with_storage := (s.identifiers_storage.lookup n).isSome
    let rebind := is_defined && with_storage
    if allowUndefined then
      if allowMultiple && !rest.isEmpty then
        match assignmentTargetLoop allowUndefined allowMultiple (pendingAdd s n) rest with
        | .error e => .error e
        | .ok (nodes, s2) => .ok ((n, rebind) :: nodes, s2)
      else .ok ([(n, rebind)], pendingAdd s n)
    else if rebind then
      if allowMultiple && !rest.isEmpty then
        match assignmentTargetLoop allowUndefined allowMultiple s rest with
        | .error e => .error e
        | .ok (nodes, s2) => .ok ((n, rebind) :: nodes, s2)
      else .ok ([(n, rebind)], s)
    else
      .error (.undefinedIdentifier n (storageKeys s.identifiers_storage)
        (if is_defined && !with_storage then [closureNote n] else []))

/-- `AssignmentTargetParser.__call__` including the final packaging: a
single name yields a `TargetIdentifier`, several names a `TargetUnpack`. -/
def assignmentTargetRun (allowUndefined allowMultiple : Bool) (s : ScopeState)
    (names : List String) : Except ParseError (AstTarget × ScopeState) :=
  match assignmentTargetLoop allowUndefined allowMultiple s names with
  | .error e => .error e
  | .ok ([x], s') => .ok (.identifier x.1 x.2, s')
  | .ok (xs, s') => .ok (.unpack xs, s')

lemma assignmentTargetRun_not_rebind (s : ScopeState) (n : String)
    (h : ¬(n ∈ s.identifiers ∧ (s.identifiers_storage.lookup n).isSome)) :
    assignmentTargetRun false false s [n] =
      .error (.undefinedIdentifier n (storageKeys s.identifiers_storage)
        (if n ∈ s.identifiers ∧ ¬(s.identifiers_storage.lookup n).isSome
         then [closureNote n] else [])) := by
  have hrebind : (decide (n ∈ s.identifiers) && (s.identifiers_storage.lookup n).isSome)
      = false := by
    by_cases h1 : n ∈ s.identifiers
    · by_cases h2 : (s.identifiers_storage.lookup n).isSome
      · exact absurd ⟨h1, h2⟩ h
      · simp [h2]
    · simp [h1]
  simp only [assignmentTargetRun, assignmentTargetLoop, Bool.false_and, if_false,
    Bool.false_eq_true, hrebind]
  congr 1
  by_cases h1 : n ∈ s.identifiers
  · by_cases h2 : (s.identifiers_storage.lookup n).isSome
    · exact absurd ⟨h1, h2⟩ h
    · simp [h1, h2]
  · simp [h1]

/-- C4: with `allow_undefined_identifiers = False` (the augmented
assignment target configuration), every name that is not both defined and
carrying a storage entry is rejected with an `UndefinedIdentifier` whose
known-identifier set is the storage keys, and the closure note is attached
exactly when the name is defined but storage-less. -/
theorem augmented_target_requires_storage (s : ScopeState) (n : String)
    (h : ¬(n ∈ s.identifiers ∧ (s.identifiers_storage.lookup n).isSome)) :
    assignmentTargetRun false false s [n] =
      .error (.undefinedIdentifier n (storageKeys s.identifiers_storage)
        (if n ∈ s.identifiers ∧ ¬(s.identifiers_storage.lookup n).isSome
         then [closureNote n] else [])) :=
  assignmentTargetRun_not_rebind s n h

/-- Witness for C4: `x` is defined but storage-less, so the error carries
the closure note. -/
theorem augmented_target_requires_storage_witness :
    (¬("x" ∈ ({"x"} : Finset String) ∧ (([] : List (String × String)).lookup "x").isSome)) ∧
    assignmentTargetRun false false ⟨{"x"}, ∅, [], []⟩ ["x"] =
      .error (.undefinedIdentifier "x" (storageKeys [])
        (if "x" ∈ ({"x"} : Finset String) ∧ ¬(([] : List (String × String)).lookup "x").isSome
         then [closureNote "x"] else [])) :=
  ⟨by decide, augmented_target_requires_storage ⟨{"x"}, ∅, [], []⟩ "x" (by decide)⟩

/-! ## C2: `parse_statement` flushes the pending identifiers

`parse_statement` (parse.py lines 529-601) tries three alternatives; each
alternative starts by clearing both pending buffers.  When the parsed node
is an `AstTarget` it expects an assignment operator, parses the right-hand
expression and then commits the pending buffers into
`identifiers`/`identifiers_storage` before clearing them.  When the node is
an `AstAttribute`, `AstLookup` or a plain expression no target parser ran,
and none of the expression-grammar parsers of the source touch the pending
buffers, so they stay empty as cleared.  The statement input records which
alternative succeeded and which identifier tokens the target parser
consumed; expression parsing is scope-neutral and is therefore not
represented. -/

inductive StmtInput where
  | augAssign (name : String)
  | simpleAssign (names : List String)
  | exprStatement
deriving DecidableEq

/-- Lines 542-543: `pending_identifiers.clear()` and
`pending_identifiers_storage.clear()` at the start of an alternative. -/
def clearPending (s : ScopeState) : ScopeState :=
  { s with pending_identifiers := ∅, pending_identifiers_storage := [] }

/-- Lines 556-559: commit the pending buffers into the durable tables and
clear them. -/
def flushPending (s : ScopeState) : ScopeState :=
  { identifiers := s.identifiers ∪ s.pending_identifiers,
    pending_identifiers := ∅,
    identifiers_storage := mapUpdate s.identifiers_storage s.pending_identifiers_storage,
    pending_identifiers_storage := [] }

/-- Scope effect of a successful `parse_statement`, by alternative. -/
def parseStatementModel (s : ScopeState) : StmtInput → Except ParseError ScopeState
  | .augAssign n =>
    match assignmentTargetRun false false (clearPending s) [n] with
    | .error e => .error e
    | .ok (_, s1) => .ok (flushPending s1)
  | .simpleAssign names =>
    match assignmentTargetRun true true (clearPending s) names with
    | .error e => .error e
    | .ok (_, s1) => .ok (flushPending s1)
  | .exprStatement => .ok (clearPending s)

lemma assignmentTargetLoop_allowUndefined :
    ∀ (names : List String) (s : ScopeState), names ≠ [] →
      ∃ nodes s', assignmentTargetLoop true true s names = .ok (nodes, s') ∧
        s'.identifiers = s.identifiers ∧
        s'.identifiers_storage = s.identifiers_storage ∧
        s'.pending_identifiers = s.pending_identifiers ∪ names.toFinset ∧
        (∀ k, k ∉ names →
          s'.pending_identifiers_storage.lookup k = s.pending_identifiers_storage.lookup k) ∧
        (∀ n ∈ names, s.identifiers_storage.lookup n = none →
          s'.pending_identifiers_storage.lookup n = some "local") ∧
        ((s.pending_identifiers_storage.map Prod.fst).Nodup →
          (s'.pending_identifiers_storage.map Prod.fst).Nodup) := by
  intro names
  induction names with
  | nil => intro s h; exact absurd rfl h
  | cons m rest ih =>
    intro s _
    have hids1 : (pendingAdd s m).identifiers = s.identifiers := rfl
    have hstor1 : (pendingAdd s m).identifiers_storage = s.identifiers_storage := rfl
    have hpend1 : (pendingAdd s m).pending_identifiers = insert m s.pending_identifiers := rfl
    have hpres1 : ∀ k, k ≠ m →
        (pendingAdd s m).pending_identifiers_storage.lookup k =
          s.pending_identifiers_storage.lookup k := by
      intro k hk
      unfold pendingAdd
      dsimp only
      by_cases hws : (s.identifiers_storage.lookup m).isSome
      · rw [if_pos hws]
      · rw [if_neg hws, mapSet_lookup_ne _ _ _ _ hk]
    have hlocal1 : s.identifiers_storage.lookup m = none →
        (pendingAdd s m).pending_identifiers_storage.lookup m = some "local" := by
      intro hnone
      unfold pendingAdd
      dsimp only
      rw [hnone]
      simp only [Option.isSome_none, Bool.false_eq_true, if_false]
      exact mapSet_lookup_self _ _ _
    have hnd1 : (s.pending_identifiers_storage.map Prod.fst).Nodup →
        ((pendingAdd s m).pending_identifiers_storage.map Prod.fst).Nodup := by
      intro hnd
      unfold pendingAdd
      dsimp only
      by_cases hws : (s.identifiers_storage.lookup m).isSome
      · rw [if_pos hws]; exact hnd
      · rw [if_neg hws]; exact mapSet_keys_nodup _ _ _ hnd
    cases rest with
    | nil =>
      refine ⟨[(m, decide (m ∈ s.identifiers) && (s.identifiers_storage.lookup m).isSome)],
        pendingAdd s m, rfl, rfl, rfl, ?_, ?_, ?_, hnd1⟩
      · rw [hpend1]
        ext x
        simp only [Finset.mem_insert, Finset.mem_union, List.toFinset_cons,
          List.toFinset_nil, insert_emptyc_eq, Finset.mem_singleton]
        tauto
      · intro k hk
        simp only [List.mem_singleton] at hk
        exact hpres1 k hk
      · intro n hn hnone
        simp only [List.mem_singleton] at hn
        subst hn
        exact hlocal1 hnone
    | cons r rs =>
      obtain ⟨nodes, s', hloop, hids, hstor, hpend, hpres, hlocal, hnd⟩ :=
        ih (pendingAdd s m) (by simp)
      have hstep : assignmentTargetLoop true true s (m :: r :: rs) =
          match assignmentTargetLoop true true (pendingAdd s m) (r :: rs) with
          | .error e => .error e
          | .ok (nodes, s2) =>
            .ok ((m, decide (m ∈ s.identifiers) && (s.identifiers_storage.lookup m).isSome)
              :: nodes, s2) := rfl
      refine ⟨(m, decide (m ∈ s.identifiers) && (s.identifiers_storage.lookup m).isSome)
          :: nodes, s', ?_, ?_, ?_, ?_, ?_, ?_, ?_⟩
      · rw [hstep, hloop]
      · rw [hids, hids1]
      · rw [hstor, hstor1]
      · rw [hpend, hpend1]
        ext x
        simp only [Finset.mem_insert, Finset.mem_union, List.toFinset_cons,
          Finset.mem_singleton, List.mem_toFinset]
        tauto
      · intro k hk
        simp only [List.mem_cons] at hk
        push_neg at hk
        rw [hpres k (by simp only [List.mem_cons]; push_neg; exact hk.2), hpres1 k hk.1]
      · intro n hn hnone
        simp only [List.mem_cons] at hn
        rcases hn with hn | hn
        · subst hn
          by_cases hmem : n ∈ r :: rs
          · refine hlocal n hmem ?_
            rw [hstor1]
            exact hnone
          · rw [hpres n hmem]
            exact hlocal1 hnone
        · refine hlocal n (by simp only [List.mem_cons]; exact hn) ?_
          rw [hstor1]
          exact hnone
      · intro hbase
        exact hnd (hnd1 hbase)

/-- C2: after every successful `parse_statement`, both pending buffers are
empty, and every name a simple assignment target placed in them is now in
`identifiers` (with its freshly assigned `"local"` storage class visible in
`identifiers_storage` when the name had no storage entry before). -/
theorem parse_statement_scope_flush (s : ScopeState) (inp : StmtInput) (s' : ScopeState)
    (h : parseStatementModel s inp = .ok s') :
    s'.pending_identifiers = ∅ ∧ s'.pending_identifiers_storage = [] ∧
    (∀ names, inp = .simpleAssign names →
      ∀ n ∈ names, n ∈ s'.identifiers ∧
        (s.identifiers_storage.lookup n = none →
          s'.identifiers_storage.lookup n = some "local")) := by
  cases inp with
  | augAssign m =>
    simp only [parseStatementModel] at h
    cases hrun : assignmentTargetRun false false (clearPending s) [m] with
    | error e => rw [hrun] at h; exact absurd h (by simp)
    | ok p =>
      rw [hrun] at h
      simp only [Except.ok.injEq] at h
      subst h
      exact ⟨rfl, rfl, by intro names hcon; exact absurd hcon (by simp)⟩
  | exprStatement =>
    simp only [parseStatementModel, Except.ok.injEq] at h
    subst h
    exact ⟨rfl, rfl, by intro names hcon; exact absurd hcon (by simp)⟩
  | simpleAssign names =>
    cases hn : names with
    | nil =>
      subst hn
      simp [parseStatementModel, assignmentTargetRun, assignmentTargetLoop] at h
    | cons m rest =>
      subst hn
      obtain ⟨nodes, s1, hloop, hids, hstor, hpend, _, hlocal, hnd⟩ :=
        assignmentTargetLoop_allowUndefined (m :: rest) (clearPending s) (by simp)
      simp only [parseStatementModel, assignmentTargetRun, hloop] at h
      have hs' : s' = flushPending s1 := by
        cases nodes with
        | nil => simp at h; exact h.symm
        | cons x xs =>
          cases xs with
          | nil => simp at h; exact h.symm
          | cons y ys => simp at h; exact h.symm
      subst hs'
      refine ⟨rfl, rfl, ?_⟩
      intro names' hinj n hn
      have hnames : names' = m :: rest := by
        injection hinj with hh
        exact hh.symm
      subst hnames
      constructor
      · show n ∈ s1.identifiers ∪ s1.pending_identifiers
        rw [hids, hpend]
        simp only [clearPending]
        apply Finset.mem_union_right
        apply Finset.mem_union_right
        exact List.mem_toFinset.mpr hn
      · intro hnone
        show (mapUpdate s1.identifiers_storage s1.pending_identifiers_storage).lookup n
          = some "local"
        have hlook : s1.pending_identifiers_storage.lookup n = some "local" := by
          apply hlocal n hn
          simp only [clearPending]
          exact hnone
        apply mapUpdate_lookup_of_lookup _ _ _ _ _ hlook
        apply hnd
        simp [clearPending]

/-- Witness for C2: assigning to a fresh name `x` commits it as a local. -/
theorem parse_statement_scope_flush_witness :
    (parseStatementModel ⟨∅, ∅, [], []⟩ (.simpleAssign ["x"]) =
      .ok ⟨{"x"}, ∅, [("x", "local")], []⟩) ∧
    ((⟨{"x"}, ∅, [("x", "local")], []⟩ : ScopeState).pending_identifiers = ∅ ∧
      (⟨{"x"}, ∅, [("x", "local")], []⟩ : ScopeState).pending_identifiers_storage = [] ∧
      (∀ names, StmtInput.simpleAssign ["x"] = .simpleAssign names →
        ∀ n ∈ names, n ∈ (⟨{"x"}, ∅, [("x", "local")], []⟩ : ScopeState).identifiers ∧
          ((⟨∅, ∅, [], []⟩ : ScopeState).identifiers_storage.lookup n = none →
            (⟨{"x"}, ∅, [("x", "local")], []⟩ : ScopeState).identifiers_storage.lookup n =
              some "local"))) :=
  ⟨by decide, parse_statement_scope_flush ⟨∅, ∅, [], []⟩ (.simpleAssign ["x"])
    ⟨{"x"}, ∅, [("x", "local")], []⟩ (by decide)⟩

/-! ## C10: `check_final_expression` restores the stream position

`check_final_expression` (parse.py lines 479-491) records `stream.index`,
probes for an indent continuation (`consume_line_continuation`, a `mecha`
helper modelled as the abstract function `clc`), reads the next token, and
on the success paths writes the recorded index back. -/

structure Token where
  kind : String
  value : String
deriving DecidableEq

structure TokStream where
  tokens : List Token
  index : Nat
deriving DecidableEq

/-- `stream.get()`: consume and return the next token, or `None` at the
end of the input. -/
def streamGetAny (s : TokStream) : Option Token × TokStream :=
  match s.tokens.get? s.index with
  | some t => (some t, { s with index := s.index + 1 })
  | none => (none, s)

/-- Translation of `check_final_expression`, with
`consume_line_continuation` passed in as `clc`.  The recorded
`current_index = stream.index` is inlined as `s.index` (the model is pure,
so the entry index is simply the index of `s`). -/
def check_final_expression (clc : TokStream → Bool × TokStream) (s : TokStream) :
    Except ParseError TokStream :=
  if (clc s).1 then .error (.invalidSyntax "Invalid indent following final expression.")
  else
    match (streamGetAny (clc s).2).1 with
    | some t =>
      if t.kind == "newline" || t.kind == "eof" then
        .ok { (streamGetAny (clc s).2).2 with index := s.index }
      else .error (.invalidSyntax "Trailing input following final expression.")
    | none => .ok { (streamGetAny (clc s).2).2 with index := s.index }

lemma streamGetAny_tokens (s : TokStream) : (streamGetAny s).2.tokens = s.tokens := by
  unfold streamGetAny
  split <;> rfl

/-- Decidable success condition: the token after the probe, if any, is a
newline or eof token. -/
def finalTokenOk (s1 : TokStream) : Bool :=
  match (streamGetAny s1).1 with
  | none => true
  | some t => t.kind == "newline" || t.kind == "eof"

/-- C10: whenever `check_final_expression` succeeds its result carries the
entry index, and when no indent continuation is found and the next token is
a newline or eof (or the stream is exhausted) it succeeds with the entry
index restored, so the terminating token is not consumed. -/
theorem check_final_expression_preserves_index :
    (∀ (clc : TokStream → Bool × TokStream) (s t : TokStream),
      check_final_expression clc s = .ok t →
        t.index = s.index ∧ t.tokens = (clc s).2.tokens) ∧
    (∀ (clc : TokStream → Bool × TokStream) (s : TokStream),
      (clc s).1 = false → finalTokenOk (clc s).2 = true →
      check_final_expression clc s = .ok { (streamGetAny (clc s).2).2 with index := s.index }) := by
  constructor
  · intro clc s t h
    unfold check_final_expression at h
    split at h
    · exact absurd h (by simp)
    · split at h
      · split at h
        · injection h with h2
          subst h2
          exact ⟨rfl, by simpa using streamGetAny_tokens (clc s).2⟩
        · exact absurd h (by simp)
      · injection h with h2
        subst h2
        exact ⟨rfl, by simpa using streamGetAny_tokens (clc s).2⟩
  · intro clc s hcont hok
    unfold check_final_expression
    rw [hcont]
    simp only [Bool.false_eq_true, if_false]
    unfold finalTokenOk at hok
    split
    · rename_i t heq
      have hok2 : (t.kind == "newline" || t.kind == "eof") = true := by
        rw [heq] at hok
        exact hok
      rw [if_pos hok2]
    · rfl

/-- Witness for C10: a stream whose next token is a newline. -/
theorem check_final_expression_preserves_index_witness :
    ((fun s => (false, s)) (⟨[⟨"newline", "\n"⟩], 0⟩ : TokStream)).1 = false ∧
    finalTokenOk ((fun (s : TokStream) => (false, s)) ⟨[⟨"newline", "\n"⟩], 0⟩).2 = true ∧
    check_final_expression (fun s => (false, s)) ⟨[⟨"newline", "\n"⟩], 0⟩ =
      .ok { (streamGetAny ((fun (s : TokStream) => (false, s))
        ⟨[⟨"newline", "\n"⟩], 0⟩).2).2 with index := (⟨[⟨"newline", "\n"⟩], 0⟩ : TokStream).index } :=
  ⟨rfl, by decide, check_final_expression_preserves_index.2 (fun s => (false, s))
    ⟨[⟨"newline", "\n"⟩], 0⟩ rfl (by decide)⟩

/-! ## C3 and C5: the `PrimaryParser` call / subscript argument loop

`PrimaryParser.__call__` (parse.py lines 1291-1336) runs one loop for both
`(...)` call suffixes and `[...]` subscript suffixes.  Each iteration asks
the argument parser for one node (`bolt:call_argument` yields keyword,
unpack or plain expression nodes; `bolt:lookup_argument` yields slice or
expression nodes), enforces the positional-after-keyword rule, and appends
the node.  The nodes the argument parser produced between the brackets are
the input list of the embedding. -/

inductive CallArg where
  | keyword (name : String)
  | unpack (type : String)
  | expr (tag : String)
  | slice (start stop step : Option String)
deriving DecidableEq

/-- The `for _ in stream.peek_until(close)` loop of lines 1301-1325:
`allow_positional` starts out true; keyword arguments and `**` unpacks
clear it; `*` unpacks and all other argument nodes are rejected once it is
cleared.  An error carries its message and the offending argument. -/
def collectArguments : Bool → List CallArg → Except (String × CallArg) (List CallArg)
  | _, [] => .ok []
  | allowPositional, a :: rest =>
    match a with
    | .keyword _ =>
      match collectArguments false rest with
      | .error e => .error e
      | .ok args => .ok (a :: args)
    | .unpack ty =>
      if ty = "dict" then
        match collectArguments false rest with
        | .error e => .error e
        | .ok args => .ok (a :: args)
      else if !allowPositional then
        .error ("List unpacking not allowed after keyword arguments.", a)
      else
        match collectArguments allowPositional rest with
        | .error e => .error e
        | .ok args => .ok (a :: args)
    | _ =>
      if !allowPositional then
        .error ("Positional argument not allowed after keyword arguments.", a)
      else
        match collectArguments allowPositional rest with
        | .error e => .error e
        | .ok args => .ok (a :: args)

inductive PNode where
  | base (name : String)
  | call (value : PNode) (arguments : List CallArg)
  | lookup (value : PNode) (arguments : List CallArg)
deriving DecidableEq

/-- Lines 1327-1336 for a `(...)` suffix: run the argument loop and build
an `AstCall`. -/
def applyCallSuffix (node : PNode) (args : List CallArg) :
    Except (String × CallArg) PNode :=
  match collectArguments true args with
  | .error e => .error e
  | .ok arguments => .ok (.call node arguments)

/-- Lines 1327-1336 for a `[...]` suffix: run the argument loop, synthesize
a single empty `AstSlice` when no arguments were collected, and build an
`AstLookup`. -/
def applySubscriptSuffix (node : PNode) (args : List CallArg) :
    Except (String × CallArg) PNode :=
  match collectArguments true args with
  | .error e => .error e
  | .ok arguments =>
    .ok (.lookup node (if arguments.isEmpty then [.slice none none none] else arguments))

/-- An argument node that clears `allow_positional`: a keyword argument or
a `**` unpack. -/
def isKeywordLike : CallArg → Bool
  | .keyword _ => true
  | .unpack ty => ty = "dict"
  | _ => false

/-- An argument node that requires `allow_positional`: a `*` unpack, a
plain expression, or a slice. -/
def isPositionalLike : CallArg → Bool
  | .keyword _ => false
  | .unpack ty => ty ≠ "dict"
  | _ => true

/-- The message reported for a rejected argument. -/
def positionalErrMsg : CallArg → String
  | .unpack _ => "List unpacking not allowed after keyword arguments."
  | _ => "Positional argument not allowed after keyword arguments."

/-- Decidable success predicate of the argument loop. -/
def orderedArgs : Bool → List CallArg → Bool
  | _, [] => true
  | allowPositional, a :: rest =>
    if isKeywordLike a then orderedArgs false rest
    else allowPositional && orderedArgs allowPositional rest

lemma collectArguments_ok (args : List CallArg) :
    ∀ ap, orderedArgs ap args = true → collectArguments ap args = .ok args := by
  induction args with
  | nil => intro ap _; rfl
  | cons a rest ih =>
    intro ap hord
    cases a with
    | keyword name =>
      rw [show orderedArgs ap (CallArg.keyword name :: rest) = orderedArgs false rest by
        simp [orderedArgs, isKeywordLike]] at hord
      simp [collectArguments, ih false hord]
    | unpack ty =>
      by_cases hty : ty = "dict"
      · subst hty
        rw [show orderedArgs ap (CallArg.unpack "dict" :: rest) = orderedArgs false rest by
          simp [orderedArgs, isKeywordLike]] at hord
        simp [collectArguments, ih false hord]
      · cases ap with
        | false => simp [orderedArgs, isKeywordLike, hty] at hord
        | true =>
          rw [show orderedArgs true (CallArg.unpack ty :: rest) = orderedArgs true rest by
            simp [orderedArgs, isKeywordLike, hty]] at hord
          simp [collectArguments, hty, ih true hord]
    | expr tag =>
      cases ap with
      | false => simp [orderedArgs, isKeywordLike] at hord
      | true =>
        rw [show orderedArgs true (CallArg.expr tag :: rest) = orderedArgs true rest by
          simp [orderedArgs, isKeywordLike]] at hord
        simp [collectArguments, ih true hord]
    | slice a b c =>
      cases ap with
      | false => simp [orderedArgs, isKeywordLike] at hord
      | true =>
        rw [show orderedArgs true (CallArg.slice a b c :: rest) = orderedArgs true rest by
          simp [orderedArgs, isKeywordLike]] at hord
        simp [collectArguments, ih true hord]

lemma orderedArgs_all_keyword :
    ∀ (args : List CallArg) (ap : Bool),
      (∀ x ∈ args, isKeywordLike x = true) → orderedArgs ap args = true := by
  intro args
  induction args with
  | nil => intro ap _; rfl
  | cons a rest ih =>
    intro ap hall
    have ha := hall a (List.mem_cons_self a rest)
    rw [show orderedArgs ap (a :: rest) = orderedArgs false rest by simp [orderedArgs, ha]]
    exact ih false (fun x hx => hall x (List.mem_cons_of_mem a hx))

lemma collectArguments_error_after_keyword (y : CallArg) (hy : isPositionalLike y = true) :
    ∀ (xs ys : List CallArg) (ap : Bool), orderedArgs ap xs = true →
      (ap = false ∨ ∃ x ∈ xs, isKeywordLike x = true) →
      collectArguments ap (xs ++ y :: ys) = .error (positionalErrMsg y, y) := by
  intro xs
  induction xs with
  | nil =>
    intro ys ap _ hkw
    have hap : ap = false := by
      rcases hkw with h | ⟨x, hx, _⟩
      · exact h
      · simp at hx
    subst hap
    cases y with
    | keyword name => simp [isPositionalLike] at hy
    | unpack ty =>
      have hty : ty ≠ "dict" := by simpa [isPositionalLike] using hy
      simp [collectArguments, hty, positionalErrMsg]
    | expr tag => rfl
    | slice a b c => rfl
  | cons x xs ih =>
    intro ys ap hord hkw
    cases x with
    | keyword name =>
      rw [show orderedArgs ap (CallArg.keyword name :: xs) = orderedArgs false xs by
        simp [orderedArgs, isKeywordLike]] at hord
      simp [collectArguments, ih ys false hord (Or.inl rfl)]
    | unpack ty =>
      by_cases hty : ty = "dict"
      · subst hty
        rw [show orderedArgs ap (CallArg.unpack "dict" :: xs) = orderedArgs false xs by
          simp [orderedArgs, isKeywordLike]] at hord
        simp [collectArguments, ih ys false hord (Or.inl rfl)]
      · cases ap with
        | false => simp [orderedArgs, isKeywordLike, hty] at hord
        | true =>
          rw [show orderedArgs true (CallArg.unpack ty :: xs) = orderedArgs true xs by
            simp [orderedArgs, isKeywordLike, hty]] at hord
          have hkw2 : (true : Bool) = false ∨ ∃ z ∈ xs, isKeywordLike z = true := by
            rcases hkw with h | ⟨z, hz, hzk⟩
            · exact absurd h (by simp)
            · simp only [List.mem_cons] at hz
              rcases hz with hz | hz
              · subst hz; simp [isKeywordLike, hty] at hzk
              · exact Or.inr ⟨z, hz, hzk⟩
          simp [collectArguments, hty, ih ys true hord hkw2]
    | expr tag =>
      cases ap with
      | false => simp [orderedArgs, isKeywordLike] at hord
      | true =>
        rw [show orderedArgs true (CallArg.expr tag :: xs) = orderedArgs true xs by
          simp [orderedArgs, isKeywordLike]] at hord
        have hkw2 : (true : Bool) = false ∨ ∃ z ∈ xs, isKeywordLike z = true := by
          rcases hkw with h | ⟨z, hz, hzk⟩
          · exact absurd h (by simp)
          · simp only [List.mem_cons] at hz
            rcases hz with hz | hz
            · subst hz; simp [isKeywordLike] at hzk
            · exact Or.inr ⟨z, hz, hzk⟩
        simp [collectArguments, ih ys true hord hkw2]
    | slice a b c =>
      cases ap with
      | false => simp [orderedArgs, isKeywordLike] at hord
      | true =>
        rw [show orderedArgs true (CallArg.slice a b c :: xs) = orderedArgs true xs by
          simp [orderedArgs, isKeywordLike]] at hord
        have hkw2 : (true : Bool) = false ∨ ∃ z ∈ xs, isKeywordLike z = true := by
          rcases hkw with h | ⟨z, hz, hzk⟩
          · exact absurd h (by simp)
          · simp only [List.mem_cons] at hz
            rcases hz with hz | hz
            · subst hz; simp [isKeywordLike] at hzk
            · exact Or.inr ⟨z, hz, hzk⟩
        simp [collectArguments, ih ys true hord hkw2]

/-- C5: in a call argument list, an argument list with no positional or
`*`-unpack after a keyword or `**` is accepted unchanged; once a keyword or
`**` has been parsed, the next positional or `*` unpack raises an error
carrying that offending argument; and a list of only keyword-like
arguments is always accepted. -/
theorem call_argument_ordering :
    (∀ args : List CallArg, orderedArgs true args = true →
      collectArguments true args = .ok args) ∧
    (∀ (xs ys : List CallArg) (y : CallArg),
      orderedArgs true xs = true →
      (∃ x ∈ xs, isKeywordLike x = true) →
      isPositionalLike y = true →
      collectArguments true (xs ++ y :: ys) = .error (positionalErrMsg y, y)) ∧
    (∀ args : List CallArg, (∀ x ∈ args, isKeywordLike x = true) →
      collectArguments true args = .ok args) := by
  refine ⟨fun args => collectArguments_ok args true, ?_, ?_⟩
  · intro xs ys y hord hkw hy
    exact collectArguments_error_after_keyword y hy xs ys true hord (Or.inr hkw)
  · intro args hall
    exact collectArguments_ok args true (orderedArgs_all_keyword args true hall)

/-- Witness for C5: a positional expression after a keyword argument is
rejected with the error carried by the offending argument. -/
theorem call_argument_ordering_witness :
    (orderedArgs true [CallArg.keyword "k"] = true) ∧
    (∃ x ∈ [CallArg.keyword "k"], isKeywordLike x = true) ∧
    (isPositionalLike (CallArg.expr "p") = true) ∧
    collectArguments true ([CallArg.keyword "k"] ++ CallArg.expr "p" :: []) =
      .error (positionalErrMsg (CallArg.expr "p"), CallArg.expr "p") :=
  ⟨by decide, ⟨CallArg.keyword "k", by simp, by decide⟩, by decide,
    call_argument_ordering.2.1 [CallArg.keyword "k"] [] (CallArg.expr "p")
      (by decide) ⟨CallArg.keyword "k", by simp, by decide⟩ (by decide)⟩

/-- C3 counterexample: a postfix subscript whose bracket pair contains no
arguments is not rejected; it produces a Lookup node with one synthesized
empty Slice (parse.py lines 1330-1334). -/
theorem empty_subscript_counterexample :
    applySubscriptSuffix (PNode.base "a") [] =
      .ok (PNode.lookup (PNode.base "a") [CallArg.slice none none none]) := rfl

/-- C3 amended: a postfix subscript whose bracket pair contains no
arguments is accepted and yields a Lookup node whose arguments are a single
synthesized empty Slice. -/
theorem empty_subscript_synthesizes_slice (node : PNode) :
    applySubscriptSuffix node [] =
      .ok (.lookup node [.slice none none none]) := rfl



/-! ## C9: `ImportStatementHandler`

`ImportStatementHandler.__call__` (parse.py lines 887-918) inspects the
parsed command and updates the scope tables.  The three import command
shapes are modelled directly; the right spine of the
`from:module:import:name:subcommand` chain is flattened into the list of
imported names it binds, in order. -/

inductive ImportCmd where
  | importModule (ns : Option String) (path : String)
  | importModuleAs (ns : Option String) (path : String) (aliasName : String)
  | fromImport (names : List String)
  | other
deriving DecidableEq

/-- Python `module.path.partition(".")[0]`: the first dotted segment. -/
def firstDotSegment (path : String) : String := (path.splitOn ".").headD path

/-- Lines 903-904 and 911-912: `identifiers.add(name)` followed by
`identifiers_storage.setdefault(name, "local")`. -/
def bindLocal (s : ScopeState) (n : String) : ScopeState :=
  { s with
    identifiers := insert n s.identifiers,
    identifiers_storage := mapSetdefault s.identifiers_storage n "local" }

/-- Translation of `ImportStatementHandler.__call__`. -/
def importStatementHandler (s : ScopeState) :
    ImportCmd → Except ParseError (ImportCmd × ScopeState)
  | .importModule ns path =>
    match ns with
    | some nsv =>
      .error (.invalidSyntax
        ("Can't import " ++ pyRepr (nsv ++ ":" ++ path) ++ " without alias."))
    | none =>
      .ok (.importModule none path,
        { s with identifiers := insert (firstDotSegment path) s.identifiers })
  | .importModuleAs ns path a => .ok (.importModuleAs ns path a, bindLocal s a)
  | .fromImport names => .ok (.fromImport names, names.foldl bindLocal s)
  | .other => .ok (.other, s)

lemma lookup_append_left (m m2 : List (String × String)) (k : String) (v : String)
    (h : m.lookup k = some v) : (m ++ m2).lookup k = some v := by
  induction m with
  | nil => simp [List.lookup] at h
  | cons p t ih =>
    obtain ⟨a, b⟩ := p
    cases hka : (k == a) with
    | true =>
      simp only [List.lookup, hka] at h
      simpa [List.lookup, hka] using h
    | false =>
      simp only [List.lookup, hka] at h
      simpa [List.lookup, hka] using ih h

lemma lookup_append_right (m m2 : List (String × String)) (k : String)
    (h : m.lookup k = none) : (m ++ m2).lookup k = m2.lookup k := by
  induction m with
  | nil => simp
  | cons p t ih =>
    obtain ⟨a, b⟩ := p
    cases hka : (k == a) with
    | true => simp [List.lookup, hka] at h
    | false =>
      simp only [List.lookup, hka] at h
      simpa [List.lookup, hka] using ih h

lemma mapSetdefault_lookup_self_none (m : List (String × String)) (k v : String)
    (h : m.lookup k = none) : (mapSetdefault m k v).lookup k = some v := by
  unfold mapSetdefault
  rw [h]
  simp only [Option.isSome_none, Bool.false_eq_true, if_false]
  rw [lookup_append_right _ _ _ h]
  simp [List.lookup]

lemma mapSetdefault_lookup_some (m : List (String × String)) (k v w : String)
    (h : m.lookup k = some w) : (mapSetdefault m k v).lookup k = some w := by
  unfold mapSetdefault
  rw [h]
  simp only [Option.isSome_some, if_pos]
  exact h

lemma mapSetdefault_lookup_ne (m : List (String × String)) (k v k' : String)
    (h : k' ≠ k) : (mapSetdefault m k v).lookup k' = m.lookup k' := by
  unfold mapSetdefault
  by_cases hs : (m.lookup k).isSome
  · rw [if_pos hs]
  · rw [if_neg hs]
    cases hm : m.lookup k' with
    | some w => exact lookup_append_left _ _ _ _ hm
    | none =>
      rw [lookup_append_right _ _ _ hm]
      have hka : (k' == k) = false := by
        simp only [beq_eq_false_iff_ne, ne_eq]
        exact h
      simp [List.lookup, hka]

lemma foldl_bindLocal_identifiers :
    ∀ (names : List String) (s : ScopeState) (n : String),
      n ∈ (names.foldl bindLocal s).identifiers ↔ n ∈ s.identifiers ∨ n ∈ names := by
  intro names
  induction names with
  | nil => intro s n; simp
  | cons m rest ih =>
    intro s n
    rw [List.foldl_cons, ih (bindLocal s m) n]
    show (n ∈ insert m s.identifiers ∨ n ∈ rest) ↔ _
    simp only [Finset.mem_insert, List.mem_cons]
    tauto

lemma foldl_bindLocal_storage_mono :
    ∀ (names : List String) (s : ScopeState) (n v : String),
      s.identifiers_storage.lookup n = some v →
      (names.foldl bindLocal s).identifiers_storage.lookup n = some v := by
  intro names
  induction names with
  | nil => intro s n v h; exact h
  | cons m rest ih =>
    intro s n v h
    simp only [List.foldl_cons]
    apply ih
    show (mapSetdefault s.identifiers_storage m "local").lookup n = some v
    by_cases hnm : n = m
    · subst hnm
      exact mapSetdefault_lookup_some _ _ _ _ h
    · rw [mapSetdefault_lookup_ne _ _ _ _ hnm]
      exact h

lemma foldl_bindLocal_storage_local :
    ∀ (names : List String) (s : ScopeState) (n : String),
      n ∈ names → s.identifiers_storage.lookup n = none →
      (names.foldl bindLocal s).identifiers_storage.lookup n = some "local" := by
  intro names
  induction names with
  | nil => intro s n h; simp at h
  | cons m rest ih =>
    intro s n hn hnone
    simp only [List.foldl_cons]
    by_cases hnm : n = m
    · subst hnm
      apply foldl_bindLocal_storage_mono
      show (mapSetdefault s.identifiers_storage n "local").lookup n = some "local"
      exact mapSetdefault_lookup_self_none _ _ _ hnone
    · have hn2 : n ∈ rest := by
        simp only [List.mem_cons] at hn
        tauto
      apply ih _ _ hn2
      show (mapSetdefault s.identifiers_storage m "local").lookup n = none
      rw [mapSetdefault_lookup_ne _ _ _ _ hnm]
      exact hnone

/-- C9: a plain `import:module` command binds the first dotted segment of
the module path in `identifiers` but leaves `identifiers_storage` alone;
`import:module:as:alias` and `from:module:import:...` bind each name in
`identifiers` and (when the name had no storage entry) as `"local"` in
`identifiers_storage`; consequently a freshly plainly-imported module name
is defined but storage-less and is rejected as an augmented assignment
target. -/
theorem import_statement_scope_effects :
    (∀ (s : ScopeState) (path : String),
      importStatementHandler s (.importModule none path) =
        .ok (.importModule none path,
          { s with identifiers := insert (firstDotSegment path) s.identifiers })) ∧
    (∀ (s : ScopeState) (ns : Option String) (path a : String),
      importStatementHandler s (.importModuleAs ns path a) =
        .ok (.importModuleAs ns path a, bindLocal s a) ∧
      a ∈ (bindLocal s a).identifiers ∧
      (s.identifiers_storage.lookup a = none →
        (bindLocal s a).identifiers_storage.lookup a = some "local")) ∧
    (∀ (s : ScopeState) (names : List String),
      importStatementHandler s (.fromImport names) =
        .ok (.fromImport names, names.foldl bindLocal s) ∧
      ∀ n ∈ names, n ∈ (names.foldl bindLocal s).identifiers ∧
        (s.identifiers_storage.lookup n = none →
          (names.foldl bindLocal s).identifiers_storage.lookup n = some "local")) ∧
    (∀ (s : ScopeState) (path : String),
      s.identifiers_storage.lookup (firstDotSegment path) = none →
      assignmentTargetRun false false
          { s with identifiers := insert (firstDotSegment path) s.identifiers }
          [firstDotSegment path] =
        .error (.undefinedIdentifier (firstDotSegment path)
          (storageKeys s.identifiers_storage) [closureNote (firstDotSegment path)])) := by
  refine ⟨fun s path => rfl, ?_, ?_, ?_⟩
  · intro s ns path a
    refine ⟨rfl, ?_, ?_⟩
    · show a ∈ insert a s.identifiers
      exact Finset.mem_insert_self a s.identifiers
    · intro hnone
      exact mapSetdefault_lookup_self_none _ _ _ hnone
  · intro s names
    refine ⟨rfl, ?_⟩
    intro n hn
    refine ⟨?_, ?_⟩
    · rw [foldl_bindLocal_identifiers]
      exact Or.inr hn
    · intro hnone
      exact foldl_bindLocal_storage_local names s n hn hnone
  · intro s path hnone
    have h := assignmentTargetRun_not_rebind
      { s with identifiers := insert (firstDotSegment path) s.identifiers }
      (firstDotSegment path)
      (by
        dsimp only
        rw [hnone]
        simp)
    rw [h]
    congr 2
    rw [if_pos]
    constructor
    · exact Finset.mem_insert_self _ _
    · dsimp only
      rw [hnone]
      simp

/-- Witness for C9: importing `foo.bar` plainly and then augmenting `foo`. -/
theorem import_statement_scope_effects_witness :
    ((⟨∅, ∅, [], []⟩ : ScopeState).identifiers_storage.lookup
        (firstDotSegment "foo.bar") = none) ∧
    assignmentTargetRun false false
        { (⟨∅, ∅, [], []⟩ : ScopeState) with
            identifiers := insert (firstDotSegment "foo.bar")
              (⟨∅, ∅, [], []⟩ : ScopeState).identifiers }
        [firstDotSegment "foo.bar"] =
      .error (.undefinedIdentifier (firstDotSegment "foo.bar")
        (storageKeys (⟨∅, ∅, [], []⟩ : ScopeState).identifiers_storage)
        [closureNote (firstDotSegment "foo.bar")]) :=
  ⟨by decide, import_statement_scope_effects.2.2.2 ⟨∅, ∅, [], []⟩ "foo.bar" (by decide)⟩

/-! ## C7: `parse_function_signature` default scopes

`parse_function_signature` (parse.py lines 759-803) copies the outer
`identifiers` into `scoped_identifiers`, adds the function name, and, when
parsing the default expression of an argument, provides
`scoped_identifiers | {arg.name for arg in arguments}` where `arguments`
holds only the previously parsed arguments (the current argument is
appended after its default has been parsed).  The model records, for every
argument, the identifier scope provided while parsing its default (or
`none` when the argument has no default), together with the final updates
to `identifiers` and `pending_identifiers`.  Each argument of the input is
a pair of its name and whether it has a default. -/

def sigDefaultScopes (sc : Finset String) :
    List String → List (String × Bool) → List (Option (Finset String))
  | _, [] => []
  | parsedNames, (name, hasDefault) :: rest =>
    (if hasDefault then some (sc ∪ parsedNames.toFinset) else none) ::
      sigDefaultScopes sc (parsedNames ++ [name]) rest

/-- Translation of `parse_function_signature`: the per-default scopes, the
updated `identifiers` (the function name becomes visible), and the updated
`pending_identifiers` (the argument names become pending). -/
def parseFunctionSignatureModel (identifiers pending : Finset String) (fname : String)
    (args : List (String × Bool)) :
    List (Option (Finset String)) × Finset String × Finset String :=
  (sigDefaultScopes (insert fname identifiers) [] args,
    insert fname identifiers,
    pending ∪ (args.map Prod.fst).toFinset)

lemma sigDefaultScopes_get? (sc : Finset String) :
    ∀ (args : List (String × Bool)) (parsed : List String) (k : Nat),
      (sigDefaultScopes sc parsed args).get? k =
        (args.get? k).map (fun a =>
          if a.2 then some (sc ∪ (parsed ++ (args.take k).map Prod.fst).toFinset)
          else none) := by
  intro args
  induction args with
  | nil => intro parsed k; simp [sigDefaultScopes]
  | cons a rest ih =>
    intro parsed k
    obtain ⟨name, hasDefault⟩ := a
    cases k with
    | zero => simp [sigDefaultScopes]
    | succ k =>
      simp only [sigDefaultScopes, List.get?_cons_succ, List.take_succ_cons, List.map_cons]
      rw [ih (parsed ++ [name]) k]
      simp only [List.append_assoc, List.singleton_append]

/-- C7: the default expression of the k-th argument is parsed with
identifier scope equal to the outer identifiers extended with the function
name and the names of the arguments before it, and (when fresh) the
argument's own name is not in that scope. -/
theorem function_signature_default_scopes (identifiers pending : Finset String)
    (fname : String) (args : List (String × Bool)) (k : Nat) (name : String)
    (hk : args.get? k = some (name, true)) :
    ((parseFunctionSignatureModel identifiers pending fname args).1.get? k =
      some (some (insert fname identifiers ∪ ((args.take k).map Prod.fst).toFinset))) ∧
    (name ∉ identifiers → name ≠ fname → name ∉ (args.take k).map Prod.fst →
      name ∉ insert fname identifiers ∪ ((args.take k).map Prod.fst).toFinset) := by
  constructor
  · show (sigDefaultScopes (insert fname identifiers) [] args).get? k = _
    rw [sigDefaultScopes_get? _ args [] k, hk]
    simp
  · intro h1 h2 h3
    simp only [Finset.mem_union, Finset.mem_insert, List.mem_toFinset]
    push_neg
    exact ⟨⟨h2, h1⟩, h3⟩

/-- Witness for C7: the default of the second argument sees the function
name and the first argument, but not the second argument itself. -/
theorem function_signature_default_scopes_witness :
    ([("a", false), ("b", true)].get? 1 = some ("b", true)) ∧
    ((parseFunctionSignatureModel ∅ ∅ "f" [("a", false), ("b", true)]).1.get? 1 =
      some (some (insert "f" ∅ ∪
        (([("a", false), ("b", true)].take 1).map Prod.fst).toFinset))) ∧
    ("b" ∉ (∅ : Finset String) → "b" ≠ "f" →
      "b" ∉ ([("a", false), ("b", true)].take 1).map Prod.fst →
      "b" ∉ insert "f" (∅ : Finset String) ∪
        (([("a", false), ("b", true)].take 1).map Prod.fst).toFinset) :=
  ⟨by decide,
    (function_signature_default_scopes ∅ ∅ "f" [("a", false), ("b", true)] 1 "b"
      (by decide)).1,
    (function_signature_default_scopes ∅ ∅ "f" [("a", false), ("b", true)] 1 "b"
      (by decide)).2⟩

/-! ## C6: `IfElseLoweringParser` idempotence

`IfElseLoweringParser.__call__` (parse.py lines 657-711) walks the command
list of a parsed root.  The outer `for command in commands` loop is the
`normal` mode below (tracking `previous`); the inner
`for command in commands` loop that collects a run of
`elif:condition:body` / `else:body` commands into `elif_chain` is the
`chain` mode.  `buildElse` is the `for stmt in reversed(elif_chain)`
rewrite producing the nested `else:body` command.  The root is represented
by its command list. -/

inductive ANode where
  | command (identifier : String) (arguments : List ANode)
  | root (commands : List ANode)
  | leaf (tag : String)

/-- The `identifier` attribute of a command node (only command nodes occur
in a root's command list). -/
def idOf : ANode → String
  | .command ident _ => ident
  | _ => ""

/-- Membership test of the Python `in ["elif:condition:body", "else:body"]`. -/
def isBranchId (s : String) : Bool :=
  s == "elif:condition:body" || s == "else:body"

/-- Python `replace(stmt, identifier="if:condition:body")`. -/
def withIdentifier (n : ANode) (ident : String) : ANode :=
  match n with
  | .command _ args => .command ident args
  | other => other

/-- One iteration of `for stmt in reversed(elif_chain)` (lines 690-698). -/
def buildStep (last : List ANode) (stmt : ANode) : List ANode :=
  [ANode.command "else:body"
    [ANode.root (withIdentifier stmt "if:condition:body" :: last)]]

/-- Line 685: the collected chain ends in an `else:body` command. -/
def hasElseChain (chain : List ANode) : Bool :=
  match chain.getLast? with
  | some c => idOf c == "else:body"
  | none => false

/-- Lines 685-700: pop a trailing `else:body`, then fold the reversed chain
into a single nested `else:body` command. -/
def buildElse (chain : List ANode) : ANode :=
  if hasElseChain chain then
    (chain.dropLast.reverse.foldl buildStep chain.getLast?.toList).headD (ANode.leaf "")
  else
    (chain.reverse.foldl buildStep []).headD (ANode.leaf "")

inductive LowerMode where
  | normal (previous : String)
  | chain (collected : List ANode)

/-- The command-list walk of `IfElseLoweringParser.__call__`, processing
one command per step. -/
def lowerGo : LowerMode → Bool → List ANode → List ANode → Except String (Bool × List ANode)
  | .normal _, changed, acc, [] => .ok (changed, acc)
  | .chain collected, changed, acc, [] => .ok (changed, acc ++ [buildElse collected])
  | .normal prev, changed, acc, c :: rest =>
    if isBranchId (idOf c) &&
        !(prev == "if:condition:body" || prev == "elif:condition:body") then
      .error "Conditional branch must be part of an if statement."
    else if idOf c == "elif:condition:body" then
      lowerGo (.chain [c]) true acc rest
    else
      lowerGo (.normal (idOf c)) changed (acc ++ [c]) rest
  | .chain collected, changed, acc, c :: rest =>
    if isBranchId (idOf c) then
      lowerGo (.chain (collected ++ [c])) changed acc rest
    else
      lowerGo (.normal (idOf c)) changed (acc ++ [buildElse collected, c]) rest

/-- The lowering pass on a root's command list: the rewritten list when a
chain was found, the untouched input otherwise. -/
def lowerRoot (commands : List ANode) : Except String (List ANode) :=
  match lowerGo (.normal "") false [] commands with
  | .error e => .error e
  | .ok (changed, result) => .ok (if changed then result else commands)

/-- The walk accepts command `c` after previous identifier `prev` without
starting a chain. -/
def stepOk (prev : String) (c : ANode) : Bool :=
  !(isBranchId (idOf c) &&
      !(prev == "if:condition:body" || prev == "elif:condition:body")) &&
  !(idOf c == "elif:condition:body")

/-- The whole list passes the walk in normal mode with no chain starting. -/
def goodAfter : String → List ANode → Bool
  | _, [] => true
  | prev, c :: rest => stepOk prev c && goodAfter (idOf c) rest

/-- Identifier of the last command of `l`, or `p` when `l` is empty. -/
def lastIdD (p : String) (l : List ANode) : String :=
  match l.getLast? with
  | some c => idOf c
  | none => p

lemma lastIdD_concat (p : String) (acc : List ANode) (x : ANode) :
    lastIdD p (acc ++ [x]) = idOf x := by
  simp [lastIdD, List.getLast?_concat]

lemma lastIdD_cons (p : String) (a : ANode) (t : List ANode) :
    lastIdD p (a :: t) = lastIdD (idOf a) t := by
  cases t with
  | nil => simp [lastIdD]
  | cons b u =>
    unfold lastIdD
    rw [List.getLast?_cons_cons]
    cases hg : (b :: u).getLast? with
    | none => exact absurd (List.getLast?_eq_none_iff.mp hg) (by simp)
    | some x => rfl

lemma goodAfter_append (p0 : String) :
    ∀ (acc : List ANode) (c : ANode), goodAfter p0 acc = true →
      stepOk (lastIdD p0 acc) c = true →
      goodAfter p0 (acc ++ [c]) = true := by
  intro acc
  induction acc generalizing p0 with
  | nil =>
    intro c _ h2
    have h2a : stepOk p0 c = true := h2
    show (stepOk p0 c && goodAfter (idOf c) []) = true
    rw [h2a]
    rfl
  | cons a t ih =>
    intro c h1 h2
    simp only [goodAfter, Bool.and_eq_true] at h1
    simp only [List.cons_append, goodAfter, Bool.and_eq_true]
    refine ⟨h1.1, ?_⟩
    apply ih (idOf a) c h1.2
    rw [lastIdD_cons] at h2
    exact h2

lemma foldl_buildStep_ne_nil :
    ∀ (l : List ANode) (init : List ANode), l ≠ [] →
      ∃ args, l.foldl buildStep init = [ANode.command "else:body" args] := by
  intro l
  induction l with
  | nil => intro init h; exact absurd rfl h
  | cons x xs ih =>
    intro init _
    cases xs with
    | nil => exact ⟨_, rfl⟩
    | cons y ys =>
      rw [List.foldl_cons]
      exact ih (buildStep init x) (by simp)

lemma buildElse_id (chain : List ANode) (h : chain ≠ []) :
    ∃ args, buildElse chain = ANode.command "else:body" args := by
  unfold buildElse
  by_cases hhe : hasElseChain chain = true
  · rw [if_pos hhe]
    cases hlast : chain.getLast? with
    | none => exact absurd (List.getLast?_eq_none_iff.mp hlast) h
    | some c =>
      cases hbody : chain.dropLast with
      | nil =>
        simp only [List.reverse_nil, List.foldl_nil, Option.toList_some, List.headD_cons]
        have hel : (idOf c == "else:body") = true := by
          unfold hasElseChain at hhe
          rw [hlast] at hhe
          exact hhe
        cases c with
        | command ident args =>
          have hid : ident = "else:body" := by simpa [idOf] using hel
          exact ⟨args, by rw [hid]⟩
        | root cs => simp [idOf] at hel
        | leaf t => simp [idOf] at hel
      | cons b bs =>
        obtain ⟨args, hfold⟩ := foldl_buildStep_ne_nil (b :: bs).reverse _ (by simp)
        rw [hfold]
        exact ⟨args, rfl⟩
  · rw [if_neg hhe]
    have hne2 : chain.reverse ≠ [] := by simpa using h
    obtain ⟨args, hfold⟩ := foldl_buildStep_ne_nil chain.reverse [] hne2
    rw [hfold]
    exact ⟨args, rfl⟩

lemma lowerGo_no_elif (l : List ANode) :
    ∀ (prev : String) (ch : Bool) (acc : List ANode), goodAfter prev l = true →
      lowerGo (.normal prev) ch acc l = .ok (ch, acc ++ l) := by
  induction l with
  | nil => intro prev ch acc _; simp [lowerGo]
  | cons c rest ih =>
    intro prev ch acc hgood
    simp only [goodAfter, Bool.and_eq_true] at hgood
    obtain ⟨hstep, hrest⟩ := hgood
    simp only [stepOk, Bool.and_eq_true, Bool.not_eq_true'] at hstep
    obtain ⟨h1, h2⟩ := hstep
    simp only [lowerGo, h1, h2, Bool.false_eq_true, if_false]
    rw [ih (idOf c) ch (acc ++ [c]) hrest]
    simp

lemma lowerGo_changed_true (l : List ANode) :
    ∀ (mode : LowerMode) (acc : List ANode) (ch' : Bool) (out : List ANode),
      lowerGo mode true acc l = .ok (ch', out) → ch' = true := by
  induction l with
  | nil =>
    intro mode acc ch' out h
    cases mode with
    | normal prev =>
      simp only [lowerGo, Except.ok.injEq, Prod.mk.injEq] at h
      exact h.1.symm
    | chain col =>
      simp only [lowerGo, Except.ok.injEq, Prod.mk.injEq] at h
      exact h.1.symm
  | cons c rest ih =>
    intro mode acc ch' out h
    cases mode with
    | normal prev =>
      simp only [lowerGo] at h
      split at h
      · simp at h
      · split at h
        · exact ih _ _ _ _ h
        · exact ih _ _ _ _ h
    | chain col =>
      simp only [lowerGo] at h
      split at h
      · exact ih _ _ _ _ h
      · exact ih _ _ _ _ h

lemma lowerGo_unchanged (l : List ANode) :
    ∀ (prev : String) (acc : List ANode) (out : List ANode),
      lowerGo (.normal prev) false acc l = .ok (false, out) → out = acc ++ l := by
  induction l with
  | nil =>
    intro prev acc out h
    simp only [lowerGo, Except.ok.injEq, Prod.mk.injEq] at h
    rw [← h.2]
    simp
  | cons c rest ih =>
    intro prev acc out h
    simp only [lowerGo] at h
    split at h
    · simp at h
    · split at h
      · have := lowerGo_changed_true rest (.chain [c]) acc false out h
        simp at this
      · rw [ih _ _ _ h]
        simp

lemma lowerGo_goodAfter (l : List ANode) :
    ∀ (mode : LowerMode) (ch : Bool) (acc : List ANode) (p0 : String) (ch' : Bool)
      (out : List ANode),
      lowerGo mode ch acc l = .ok (ch', out) →
      goodAfter p0 acc = true →
      (∀ prev, mode = .normal prev →
        lastIdD p0 acc = prev ∧ prev ≠ "elif:condition:body") →
      (∀ col, mode = .chain col →
        lastIdD p0 acc = "if:condition:body" ∧ col ≠ []) →
      goodAfter p0 out = true := by
  induction l with
  | nil =>
    intro mode ch acc p0 ch' out h hacc hnorm hchain
    cases mode with
    | normal prev =>
      simp only [lowerGo, Except.ok.injEq, Prod.mk.injEq] at h
      rw [← h.2]
      exact hacc
    | chain col =>
      simp only [lowerGo, Except.ok.injEq, Prod.mk.injEq] at h
      obtain ⟨hlast, hne⟩ := hchain col rfl
      obtain ⟨args, hb⟩ := buildElse_id col hne
      rw [← h.2]
      apply goodAfter_append p0 acc _ hacc
      rw [hlast, hb]
      simp [stepOk, isBranchId, idOf]
  | cons c rest ih =>
    intro mode ch acc p0 ch' out h hacc hnorm hchain
    cases mode with
    | normal prev =>
      obtain ⟨hlast, hprev⟩ := hnorm prev rfl
      simp only [lowerGo] at h
      split at h
      · simp at h
      · split at h
        · rename_i hcheck helif
          have hbr : isBranchId (idOf c) = true := by
            simp only [isBranchId, helif, Bool.true_or]
          have hok : (prev == "if:condition:body" ||
              prev == "elif:condition:body") = true := by
            by_contra hx
            apply hcheck
            rw [hbr]
            simp only [Bool.true_and, Bool.not_eq_true']
            simpa using hx
          have hif : prev = "if:condition:body" := by
            have hok2 : prev = "if:condition:body" ∨ prev = "elif:condition:body" := by
              simpa using hok
            rcases hok2 with hp | hp
            · exact hp
            · exact absurd hp hprev
          apply ih (.chain [c]) true acc p0 ch' out h hacc
          · intro p hp; simp at hp
          · intro col hcol
            injection hcol with hcol
            refine ⟨?_, ?_⟩
            · rw [hlast, hif]
            · rw [← hcol]; simp
        · rename_i hcheck helif
          apply ih (.normal (idOf c)) ch (acc ++ [c]) p0 ch' out h
          · apply goodAfter_append p0 acc c hacc
            rw [hlast]
            simp only [stepOk, Bool.and_eq_true, Bool.not_eq_true']
            constructor
            · simpa using hcheck
            · simpa using helif
          · intro p hp
            injection hp with hp
            refine ⟨?_, ?_⟩
            · rw [lastIdD_concat, hp]
            · rw [← hp]
              intro hx
              apply helif
              rw [hx]
              simp
          · intro col hcol; simp at hcol
    | chain col =>
      obtain ⟨hlast, hne⟩ := hchain col rfl
      simp only [lowerGo] at h
      split at h
      · apply ih (.chain (col ++ [c])) ch acc p0 ch' out h hacc
        · intro p hp; simp at hp
        · intro col2 hcol2
          injection hcol2 with hc2
          refine ⟨hlast, ?_⟩
          rw [← hc2]
          simp
      · rename_i hnotbr
        obtain ⟨args, hb⟩ := buildElse_id col hne
        have hbrfalse : isBranchId (idOf c) = false := by
          simpa using hnotbr
        have heliffalse : (idOf c == "elif:condition:body") = false := by
          by_contra hx
          simp only [Bool.not_eq_false] at hx
          rw [isBranchId, hx, Bool.true_or] at hbrfalse
          exact absurd hbrfalse (by simp)
        apply ih (.normal (idOf c)) ch (acc ++ [buildElse col, c]) p0 ch' out h
        · have g1 : goodAfter p0 (acc ++ [buildElse col]) = true := by
            apply goodAfter_append p0 acc _ hacc
            rw [hlast, hb]
            simp [stepOk, isBranchId, idOf]
          have g2 : goodAfter p0 ((acc ++ [buildElse col]) ++ [c]) = true := by
            apply goodAfter_append p0 _ c g1
            rw [lastIdD_concat, hb]
            simp only [stepOk, Bool.and_eq_true, Bool.not_eq_true']
            constructor
            · rw [hbrfalse]
              simp
            · exact heliffalse
          rw [List.append_assoc] at g2
          simpa using g2
        · intro p hp
          injection hp with hp
          refine ⟨?_, ?_⟩
          · rw [show acc ++ [buildElse col, c] = (acc ++ [buildElse col]) ++ [c] by simp,
              lastIdD_concat, hp]
          · rw [← hp]
            intro hx
            rw [hx] at heliffalse
            simp at heliffalse
        · intro col2 hcol2; simp at hcol2

/-- C6: applying the if/elif/else lowering rewrite to the result of a
previous successful application returns a structurally equal command list:
the first pass leaves no `elif:condition:body` command and every
`else:body` directly follows an `if:condition:body`, so the second pass
reports no change. -/
theorem if_else_lowering_idempotent (cmds cmds' : List ANode)
    (h : lowerRoot cmds = .ok cmds') : lowerRoot cmds' = .ok cmds' := by
  unfold lowerRoot at h
  cases hgo : lowerGo (.normal "") false [] cmds with
  | error e => rw [hgo] at h; simp at h
  | ok p =>
    obtain ⟨changed, result⟩ := p
    rw [hgo] at h
    simp only [Except.ok.injEq] at h
    have hgood : goodAfter "" result = true := by
      apply lowerGo_goodAfter cmds (.normal "") false [] "" changed result hgo rfl
      · intro p hp
        injection hp with hp
        refine ⟨by simp [lastIdD, hp], ?_⟩
        rw [← hp]
        decide
      · intro col hcol; simp at hcol
    have hgood2 : goodAfter "" cmds' = true := by
      cases hch : changed with
      | true =>
        rw [hch] at h
        simp only [if_pos rfl] at h
        rw [← h]
        exact hgood
      | false =>
        rw [hch] at h
        simp only [Bool.false_eq_true, if_false] at h
        rw [hch] at hgo
        have hres : result = [] ++ cmds := lowerGo_unchanged cmds "" [] result hgo
        rw [← h]
        rw [hres] at hgood
        simpa using hgood
    unfold lowerRoot
    rw [lowerGo_no_elif cmds' "" false [] hgood2]
    simp

/-- Witness for C6: an `if` followed by an `elif` lowers to an `if`
followed by a nested `else`, and lowering that result again returns it
unchanged. -/
theorem if_else_lowering_idempotent_witness :
    (lowerRoot
        [ANode.command "if:condition:body" [ANode.leaf "c1"],
          ANode.command "elif:condition:body" [ANode.leaf "c2"]] =
      .ok [ANode.command "if:condition:body" [ANode.leaf "c1"],
        ANode.command "else:body"
          [ANode.root [ANode.command "if:condition:body" [ANode.leaf "c2"]]]]) ∧
    lowerRoot
        [ANode.command "if:condition:body" [ANode.leaf "c1"],
          ANode.command "else:body"
            [ANode.root [ANode.command "if:condition:body" [ANode.leaf "c2"]]]] =
      .ok [ANode.command "if:condition:body" [ANode.leaf "c1"],
        ANode.command "else:body"
          [ANode.root [ANode.command "if:condition:body" [ANode.leaf "c2"]]]] :=
  ⟨rfl, if_else_lowering_idempotent
    [ANode.command "if:condition:body" [ANode.leaf "c1"],
      ANode.command "elif:condition:body" [ANode.leaf "c2"]] _ rfl⟩

/-! ## C1: the `BinaryParser` chain

`BinaryParser.__call__` (parse.py lines 1041-1064) collects an initial
operand and then `(operator, operand)` pairs while the scoped `operator`
regex matches, then folds them left-to-right, or right-to-left when
`right_associative` is set.  `get_bolt_parsers` (lines 180-240) wires the
binary levels `or`, `and`, comparison, `|`, `^`, `&`, shifts, sums, terms
and `**` (the only right-associative one) from lowest to highest
precedence, each delegating to the next for its operands.

The token-level model: an expression is an initial atom followed by a list
of `(operator token value, atom)` pairs; each level matches an operator by
membership in its canonical operator-value list (the regexes of the source
with their negative lookaheads ensure each operator text belongs to one
level; multi-word operators are written with single spaces).  The unary
levels (`inversion`, `factor`) delegate directly to their inner parser when
no unary operator leads, which is the case for these streams, so only the
binary levels appear. -/

inductive BExpr where
  | atom (value : String)
  | binary (operator : String) (left right : BExpr)
deriving DecidableEq

structure BinLevel where
  ops : List String
  rightAssociative : Bool
deriving DecidableEq

/-- Characters of `re.sub(r"\s+", " ", value)` from `normalize_whitespace`
(mecha.utils): each maximal whitespace run becomes one space. -/
def squashWs : List Char → Bool → List Char
  | [], _ => []
  | c :: rest, prevWs =>
    if c.isWhitespace then
      (if prevWs then [] else [' ']) ++ squashWs rest true
    else c :: squashWs rest false

def normalizeWhitespace (s : String) : String := ⟨squashWs s.data false⟩

/-- The loop of lines 1058-1063 (after the `result`/`node` swap for the
right-associative case). -/
def binaryCombine (rightAssoc : Bool) : BExpr → List (String × BExpr) → BExpr
  | result, [] => result
  | result, (op, node) :: rest =>
    if rightAssoc then binaryCombine rightAssoc (BExpr.binary op node result) rest
    else binaryCombine rightAssoc (BExpr.binary op result node) rest

/-- Lines 1050-1064: select the fold seed and order (for
`right_associative`, seed `nodes[-1]`, walk `nodes[-2::-1]` and the
reversed operations), then combine. -/
def binaryParserFold (rightAssoc : Bool) (first : BExpr) (pairs : List (String × BExpr)) :
    BExpr :=
  let nodes := first :: pairs.map Prod.snd
  let operations := pairs.map Prod.fst
  if rightAssoc then
    binaryCombine true (nodes.getLastD first)
      (operations.reverse.zip nodes.dropLast.reverse)
  else
    binaryCombine false first (operations.zip (nodes.drop 1))

/-- One stream token: an operator token value followed by the atom that
starts the next operand. -/
abbrev OpStream := List (String × String)

/-- The `for op in stream.collect("operator")` loop of lines 1046-1048:
while the next operator token belongs to this level, parse an operand with
the inner parser and record the normalized operator. -/
def collectOperands (ops : List String)
    (operand : String → (s : OpStream) →
      BExpr × { t : OpStream // t.length ≤ s.length }) :
    (s : OpStream) → List (String × BExpr) × { t : OpStream // t.length ≤ s.length }
  | [] => ([], ⟨[], Nat.le_refl 0⟩)
  | (op, a) :: rest =>
    if op ∈ ops then
      match operand a rest with
      | (node, ⟨rest1, h1⟩) =>
        match collectOperands ops operand rest1 with
        | (pairs, ⟨rest2, h2⟩) =>
          ((normalizeWhitespace op, node) :: pairs,
            ⟨rest2, Nat.le_trans h2 (Nat.le_trans h1 (Nat.le_succ _))⟩)
    else ([], ⟨(op, a) :: rest, Nat.le_refl _⟩)
termination_by s => s.length
decreasing_by
  simp only [List.length_cons]
  exact Nat.lt_succ_of_le h1

/-- `BinaryParser.__call__` for a whole chain of levels: a level parses its
first operand with the chain below it, collects its own operators, and
folds. -/
def parseBinaryChain : List BinLevel → String → (s : OpStream) →
    BExpr × { t : OpStream // t.length ≤ s.length }
  | [], a, s => (BExpr.atom a, ⟨s, Nat.le_refl _⟩)
  | lvl :: lower, a, s =>
    match parseBinaryChain lower a s with
    | (first, ⟨s1, h1⟩) =>
      match collectOperands lvl.ops (fun x t => parseBinaryChain lower x t) s1 with
      | (pairs, ⟨s2, h2⟩) =>
        (binaryParserFold lvl.rightAssociative first pairs,
          ⟨s2, Nat.le_trans h2 h1⟩)

/-- The binary levels of §4.3 in the order wired by `get_bolt_parsers`,
lowest precedence first. -/
def boltBinaryLevels : List BinLevel := [
  ⟨["or"], false⟩,
  ⟨["and"], false⟩,
  ⟨["==", "!=", "<=", "<", ">=", ">", "not in", "in", "is not", "is"], false⟩,
  ⟨["|"], false⟩,
  ⟨["^"], false⟩,
  ⟨["&"], false⟩,
  ⟨["<<", ">>"], false⟩,
  ⟨["+", "-"], false⟩,
  ⟨["*", "//", "/", "%"], false⟩,
  ⟨["**"], true⟩]

/-- `bolt:expression` on a flat binary-operator stream. -/
def parseExpression (a : String) (s : OpStream) : BExpr :=
  (parseBinaryChain boltBinaryLevels a s).1

lemma binaryParserFold_nil (ra : Bool) (e : BExpr) : binaryParserFold ra e [] = e := by
  cases ra <;> rfl

lemma binaryParserFold_single (ra : Bool) (e x : BExpr) (p : String) :
    binaryParserFold ra e [(p, x)] = BExpr.binary p e x := by
  cases ra <;> rfl

lemma binaryParserFold_pair_left (e x y : BExpr) (p q : String) :
    binaryParserFold false e [(p, x), (q, y)] =
      BExpr.binary q (BExpr.binary p e x) y := rfl

lemma binaryParserFold_pair_right (e x y : BExpr) (p q : String) :
    binaryParserFold true e [(p, x), (q, y)] =
      BExpr.binary p e (BExpr.binary q x y) := rfl

lemma parseBinaryChain_cons_fst (lvl : BinLevel) (lower : List BinLevel)
    (a : String) (s : OpStream) :
    (parseBinaryChain (lvl :: lower) a s).1 =
      binaryParserFold lvl.rightAssociative (parseBinaryChain lower a s).1
        (collectOperands lvl.ops (fun x t => parseBinaryChain lower x t)
          (parseBinaryChain lower a s).2.val).1 := rfl

lemma parseBinaryChain_cons_snd (lvl : BinLevel) (lower : List BinLevel)
    (a : String) (s : OpStream) :
    (parseBinaryChain (lvl :: lower) a s).2.val =
      (collectOperands lvl.ops (fun x t => parseBinaryChain lower x t)
        (parseBinaryChain lower a s).2.val).2.val := rfl

lemma collectOperands_nil_fst (ops : List String)
    (operand : String → (s : OpStream) →
      BExpr × { t : OpStream // t.length ≤ s.length }) :
    (collectOperands ops operand []).1 = [] := by
  simp [collectOperands]

lemma collectOperands_nil_snd (ops : List String)
    (operand : String → (s : OpStream) →
      BExpr × { t : OpStream // t.length ≤ s.length }) :
    (collectOperands ops operand []).2.val = [] := by
  simp [collectOperands]

lemma collectOperands_cons_notmem (ops : List String)
    (operand : String → (s : OpStream) →
      BExpr × { t : OpStream // t.length ≤ s.length })
    (op a : String) (rest : OpStream) (h : op ∉ ops) :
    (collectOperands ops operand ((op, a) :: rest)).1 = [] ∧
    (collectOperands ops operand ((op, a) :: rest)).2.val = (op, a) :: rest := by
  constructor <;> simp [collectOperands, h]

lemma collectOperands_cons_mem (ops : List String)
    (operand : String → (s : OpStream) →
      BExpr × { t : OpStream // t.length ≤ s.length })
    (op a : String) (rest : OpStream) (h : op ∈ ops) :
    (collectOperands ops operand ((op, a) :: rest)).1 =
      (normalizeWhitespace op, (operand a rest).1) ::
        (collectOperands ops operand (operand a rest).2.val).1 ∧
    (collectOperands ops operand ((op, a) :: rest)).2.val =
      (collectOperands ops operand (operand a rest).2.val).2.val := by
  rcases hop : operand a rest with ⟨node, rest1, hrest1⟩
  constructor
  · simp only [collectOperands, if_pos h, hop]
    rw [hop]
  · simp only [collectOperands, if_pos h, hop]
    rw [hop]

lemma parseBinaryChain_nil_stream :
    ∀ (levels : List BinLevel) (a : String),
      (parseBinaryChain levels a []).1 = BExpr.atom a ∧
      (parseBinaryChain levels a []).2.val = [] := by
  intro levels
  induction levels with
  | nil => intro a; exact ⟨rfl, rfl⟩
  | cons lvl lower ih =>
    intro a
    obtain ⟨ih1, ih2⟩ := ih a
    constructor
    · rw [parseBinaryChain_cons_fst, ih1, ih2, collectOperands_nil_fst,
        binaryParserFold_nil]
    · rw [parseBinaryChain_cons_snd, ih2, collectOperands_nil_snd]

lemma parseBinaryChain_stuck :
    ∀ (levels : List BinLevel) (a op x : String) (rest : OpStream),
      (∀ l ∈ levels, op ∉ l.ops) →
      (parseBinaryChain levels a ((op, x) :: rest)).1 = BExpr.atom a ∧
      (parseBinaryChain levels a ((op, x) :: rest)).2.val = (op, x) :: rest := by
  intro levels
  induction levels with
  | nil => intro a op x rest _; exact ⟨rfl, rfl⟩
  | cons lvl lower ih =>
    intro a op x rest hd
    obtain ⟨ih1, ih2⟩ := ih a op x rest (fun l hl => hd l (List.mem_cons_of_mem lvl hl))
    have hop : op ∉ lvl.ops := hd lvl (List.mem_cons_self lvl lower)
    obtain ⟨c1, c2⟩ := collectOperands_cons_notmem lvl.ops
      (fun y t => parseBinaryChain lower y t) op x rest hop
    constructor
    · rw [parseBinaryChain_cons_fst, ih1, ih2, c1, binaryParserFold_nil]
    · rw [parseBinaryChain_cons_snd, ih2, c2]

lemma parseBinaryChain_prefix :
    ∀ (P S : List BinLevel) (a : String) (s : OpStream),
      (parseBinaryChain S a s).2.val = [] →
      (parseBinaryChain (P ++ S) a s).1 = (parseBinaryChain S a s).1 ∧
      (parseBinaryChain (P ++ S) a s).2.val = [] := by
  intro P
  induction P with
  | nil => intro S a s h; exact ⟨rfl, h⟩
  | cons lvl P ih =>
    intro S a s h
    obtain ⟨ih1, ih2⟩ := ih S a s h
    constructor
    · rw [List.cons_append, parseBinaryChain_cons_fst, ih1, ih2,
        collectOperands_nil_fst, binaryParserFold_nil]
    · rw [List.cons_append, parseBinaryChain_cons_snd, ih2, collectOperands_nil_snd]

lemma parseBinaryChain_two_ops_same_level
    (lvl : BinLevel) (lower : List BinLevel) (o1 o2 a b c : String)
    (h1 : o1 ∈ lvl.ops) (h2 : o2 ∈ lvl.ops)
    (d1 : ∀ l ∈ lower, o1 ∉ l.ops) (d2 : ∀ l ∈ lower, o2 ∉ l.ops) :
    (parseBinaryChain (lvl :: lower) a [(o1, b), (o2, c)]).1 =
      binaryParserFold lvl.rightAssociative (BExpr.atom a)
        [(normalizeWhitespace o1, BExpr.atom b),
          (normalizeWhitespace o2, BExpr.atom c)] ∧
    (parseBinaryChain (lvl :: lower) a [(o1, b), (o2, c)]).2.val = [] := by
  obtain ⟨p1, p2⟩ := parseBinaryChain_stuck lower a o1 b [(o2, c)] d1
  obtain ⟨q1, q2⟩ := parseBinaryChain_stuck lower b o2 c [] d2
  obtain ⟨r1, r2⟩ := parseBinaryChain_nil_stream lower c
  obtain ⟨m1a, m1b⟩ := collectOperands_cons_mem lvl.ops
    (fun x t => parseBinaryChain lower x t) o1 b [(o2, c)] h1
  obtain ⟨m2a, m2b⟩ := collectOperands_cons_mem lvl.ops
    (fun x t => parseBinaryChain lower x t) o2 c [] h2
  constructor
  · rw [parseBinaryChain_cons_fst, p1, p2, m1a]
    rw [q1, q2, m2a]
    rw [r1, r2, collectOperands_nil_fst]
  · rw [parseBinaryChain_cons_snd, p2, m1b]
    rw [q2, m2b]
    rw [r2, collectOperands_nil_snd]

lemma parseBinaryChain_two_ops_mixed
    (lvl : BinLevel) (P : List BinLevel) (lvl2 : BinLevel) (T : List BinLevel)
    (o1 o2 a b c : String)
    (h1 : o1 ∈ lvl.ops) (h2 : o2 ∈ lvl2.ops)
    (d1 : ∀ l ∈ P ++ lvl2 :: T, o1 ∉ l.ops) (d2 : ∀ l ∈ T, o2 ∉ l.ops) :
    (parseBinaryChain (lvl :: (P ++ lvl2 :: T)) a [(o1, b), (o2, c)]).1 =
      BExpr.binary (normalizeWhitespace o1) (BExpr.atom a)
        (BExpr.binary (normalizeWhitespace o2) (BExpr.atom b) (BExpr.atom c)) ∧
    (parseBinaryChain (lvl :: (P ++ lvl2 :: T)) a [(o1, b), (o2, c)]).2.val = [] := by
  obtain ⟨p1, p2⟩ := parseBinaryChain_stuck (P ++ lvl2 :: T) a o1 b [(o2, c)] d1
  have hsub : (parseBinaryChain (lvl2 :: T) b [(o2, c)]).1 =
      BExpr.binary (normalizeWhitespace o2) (BExpr.atom b) (BExpr.atom c) ∧
      (parseBinaryChain (lvl2 :: T) b [(o2, c)]).2.val = [] := by
    obtain ⟨q1, q2⟩ := parseBinaryChain_stuck T b o2 c [] d2
    obtain ⟨r1, r2⟩ := parseBinaryChain_nil_stream T c
    obtain ⟨m2a, m2b⟩ := collectOperands_cons_mem lvl2.ops
      (fun x t => parseBinaryChain T x t) o2 c [] h2
    constructor
    · rw [parseBinaryChain_cons_fst, q1, q2, m2a]
      rw [r1, r2, collectOperands_nil_fst, binaryParserFold_single]
    · rw [parseBinaryChain_cons_snd, q2, m2b]
      rw [r2, collectOperands_nil_snd]
  obtain ⟨hmid1, hmid2⟩ := parseBinaryChain_prefix P (lvl2 :: T) b [(o2, c)] hsub.2
  have hmid1e : (parseBinaryChain (P ++ lvl2 :: T) b [(o2, c)]).1 =
      BExpr.binary (normalizeWhitespace o2) (BExpr.atom b) (BExpr.atom c) := by
    rw [hmid1, hsub.1]
  obtain ⟨m1a, m1b⟩ := collectOperands_cons_mem lvl.ops
    (fun x t => parseBinaryChain (P ++ lvl2 :: T) x t) o1 b [(o2, c)] h1
  constructor
  · rw [parseBinaryChain_cons_fst, p1, p2, m1a]
    rw [hmid1e, hmid2, collectOperands_nil_fst, binaryParserFold_single]
  · rw [parseBinaryChain_cons_snd, p2, m1b]
    rw [hmid2, collectOperands_nil_snd]

lemma boltDrop_cons {i : Nat} {lvl : BinLevel}
    (h : boltBinaryLevels.get? i = some lvl) :
    boltBinaryLevels.drop i = lvl :: boltBinaryLevels.drop (i + 1) := by
  obtain ⟨hlen, hget⟩ := List.get?_eq_some.mp h
  rw [List.drop_eq_getElem_cons hlen]
  congr 1

/-- C1: through the §4.3 `BinaryParser` chain, two operators of the same
(left-associative) level fold left, two operators of the same
right-associative level fold right, the only right-associative level is
`**`, and a lower-precedence operator ends up at the root over a
higher-precedence one.  An operator is identified by membership in its
level's operator list and by absence from all deeper levels. -/
theorem binary_chain_precedence_associativity :
    (∀ (i : Nat) (lvl : BinLevel) (o1 o2 a b c : String),
      boltBinaryLevels.get? i = some lvl →
      o1 ∈ lvl.ops → o2 ∈ lvl.ops →
      lvl.rightAssociative = false →
      (∀ l ∈ boltBinaryLevels.drop (i + 1), o1 ∉ l.ops) →
      (∀ l ∈ boltBinaryLevels.drop (i + 1), o2 ∉ l.ops) →
      parseExpression a [(o1, b), (o2, c)] =
        BExpr.binary (normalizeWhitespace o2)
          (BExpr.binary (normalizeWhitespace o1) (BExpr.atom a) (BExpr.atom b))
          (BExpr.atom c)) ∧
    (∀ (i : Nat) (lvl : BinLevel) (o1 o2 a b c : String),
      boltBinaryLevels.get? i = some lvl →
      o1 ∈ lvl.ops → o2 ∈ lvl.ops →
      lvl.rightAssociative = true →
      (∀ l ∈ boltBinaryLevels.drop (i + 1), o1 ∉ l.ops) →
      (∀ l ∈ boltBinaryLevels.drop (i + 1), o2 ∉ l.ops) →
      parseExpression a [(o1, b), (o2, c)] =
        BExpr.binary (normalizeWhitespace o1) (BExpr.atom a)
          (BExpr.binary (normalizeWhitespace o2) (BExpr.atom b) (BExpr.atom c))) ∧
    (∀ lvl ∈ boltBinaryLevels, lvl.rightAssociative = true ↔ lvl.ops = ["**"]) ∧
    (∀ (i j : Nat) (lvlI lvlJ : BinLevel) (o1 o2 a b c : String),
      i < j →
      boltBinaryLevels.get? i = some lvlI →
      boltBinaryLevels.get? j = some lvlJ →
      o1 ∈ lvlI.ops → o2 ∈ lvlJ.ops →
      (∀ l ∈ boltBinaryLevels.drop (i + 1), o1 ∉ l.ops) →
      (∀ l ∈ boltBinaryLevels.drop (j + 1), o2 ∉ l.ops) →
      parseExpression a [(o1, b), (o2, c)] =
        BExpr.binary (normalizeWhitespace o1) (BExpr.atom a)
          (BExpr.binary (normalizeWhitespace o2) (BExpr.atom b) (BExpr.atom c))) := by
  refine ⟨?_, ?_, by decide, ?_⟩
  · intro i lvl o1 o2 a b c hget h1 h2 hra d1 d2
    have hdrop := boltDrop_cons hget
    obtain ⟨e1, e2⟩ := parseBinaryChain_two_ops_same_level lvl
      (boltBinaryLevels.drop (i + 1)) o1 o2 a b c h1 h2 d1 d2
    have hS2 : (parseBinaryChain (boltBinaryLevels.drop i) a
        [(o1, b), (o2, c)]).2.val = [] := by
      rw [hdrop]
      exact e2
    obtain ⟨f1, f2⟩ := parseBinaryChain_prefix (boltBinaryLevels.take i)
      (boltBinaryLevels.drop i) a [(o1, b), (o2, c)] hS2
    have hall : (parseBinaryChain boltBinaryLevels a [(o1, b), (o2, c)]).1 =
        (parseBinaryChain (boltBinaryLevels.drop i) a [(o1, b), (o2, c)]).1 := by
      conv_lhs => rw [show boltBinaryLevels =
        boltBinaryLevels.take i ++ boltBinaryLevels.drop i from
        (List.take_append_drop i boltBinaryLevels).symm]
      exact f1
    unfold parseExpression
    rw [hall, hdrop, e1, hra]
    exact binaryParserFold_pair_left _ _ _ _ _
  · intro i lvl o1 o2 a b c hget h1 h2 hra d1 d2
    have hdrop := boltDrop_cons hget
    obtain ⟨e1, e2⟩ := parseBinaryChain_two_ops_same_level lvl
      (boltBinaryLevels.drop (i + 1)) o1 o2 a b c h1 h2 d1 d2
    have hS2 : (parseBinaryChain (boltBinaryLevels.drop i) a
        [(o1, b), (o2, c)]).2.val = [] := by
      rw [hdrop]
      exact e2
    obtain ⟨f1, f2⟩ := parseBinaryChain_prefix (boltBinaryLevels.take i)
      (boltBinaryLevels.drop i) a [(o1, b), (o2, c)] hS2
    have hall : (parseBinaryChain boltBinaryLevels a [(o1, b), (o2, c)]).1 =
        (parseBinaryChain (boltBinaryLevels.drop i) a [(o1, b), (o2, c)]).1 := by
      conv_lhs => rw [show boltBinaryLevels =
        boltBinaryLevels.take i ++ boltBinaryLevels.drop i from
        (List.take_append_drop i boltBinaryLevels).symm]
      exact f1
    unfold parseExpression
    rw [hall, hdrop, e1, hra]
    exact binaryParserFold_pair_right _ _ _ _ _
  · intro i j lvlI lvlJ o1 o2 a b c hij hgetI hgetJ h1 h2 d1 d2
    have hdropI := boltDrop_cons hgetI
    have hdropJ := boltDrop_cons hgetJ
    have hdecomp : boltBinaryLevels.drop (i + 1) =
        (boltBinaryLevels.drop (i + 1)).take (j - (i + 1)) ++
          lvlJ :: boltBinaryLevels.drop (j + 1) := by
      conv_lhs => rw [← List.take_append_drop (j - (i + 1))
        (boltBinaryLevels.drop (i + 1))]
      congr 1
      rw [List.drop_drop]
      have harith : i + 1 + (j - (i + 1)) = j := by omega
      rw [harith, hdropJ]
    obtain ⟨e1, e2⟩ := parseBinaryChain_two_ops_mixed lvlI
      ((boltBinaryLevels.drop (i + 1)).take (j - (i + 1))) lvlJ
      (boltBinaryLevels.drop (j + 1)) o1 o2 a b c h1 h2
      (by rw [← hdecomp]; exact d1) d2
    have hdropI2 : boltBinaryLevels.drop i =
        lvlI :: ((boltBinaryLevels.drop (i + 1)).take (j - (i + 1)) ++
          lvlJ :: boltBinaryLevels.drop (j + 1)) := by
      rw [hdropI, ← hdecomp]
    have hS2 : (parseBinaryChain (boltBinaryLevels.drop i) a
        [(o1, b), (o2, c)]).2.val = [] := by
      rw [hdropI2]
      exact e2
    obtain ⟨f1, f2⟩ := parseBinaryChain_prefix (boltBinaryLevels.take i)
      (boltBinaryLevels.drop i) a [(o1, b), (o2, c)] hS2
    have hall : (parseBinaryChain boltBinaryLevels a [(o1, b), (o2, c)]).1 =
        (parseBinaryChain (boltBinaryLevels.drop i) a [(o1, b), (o2, c)]).1 := by
      conv_lhs => rw [show boltBinaryLevels =
        boltBinaryLevels.take i ++ boltBinaryLevels.drop i from
        (List.take_append_drop i boltBinaryLevels).symm]
      exact f1
    unfold parseExpression
    rw [hall, hdropI2, e1]

/-- Witness for C1: `a + b - c` folds left, `a ** b ** c` folds right, and
`a + b * c` keeps the lower-precedence `+` at the root. -/
theorem binary_chain_precedence_associativity_witness :
    (parseExpression "a" [("+", "b"), ("-", "c")] =
      BExpr.binary (normalizeWhitespace "-")
        (BExpr.binary (normalizeWhitespace "+") (BExpr.atom "a") (BExpr.atom "b"))
        (BExpr.atom "c")) ∧
    (parseExpression "a" [("**", "b"), ("**", "c")] =
      BExpr.binary (normalizeWhitespace "**") (BExpr.atom "a")
        (BExpr.binary (normalizeWhitespace "**") (BExpr.atom "b") (BExpr.atom "c"))) ∧
    (parseExpression "a" [("+", "b"), ("*", "c")] =
      BExpr.binary (normalizeWhitespace "+") (BExpr.atom "a")
        (BExpr.binary (normalizeWhitespace "*") (BExpr.atom "b") (BExpr.atom "c"))) :=
  ⟨binary_chain_precedence_associativity.1 7 ⟨["+", "-"], false⟩ "+" "-" "a" "b" "c"
      (by decide) (by decide) (by decide) rfl (by decide) (by decide),
    binary_chain_precedence_associativity.2.1 9 ⟨["**"], true⟩ "**" "**" "a" "b" "c"
      (by decide) (by decide) (by decide) rfl (by decide) (by decide),
    binary_chain_precedence_associativity.2.2.2 7 8 ⟨["+", "-"], false⟩
      ⟨["*", "//", "/", "%"], false⟩ "+" "*" "a" "b" "c" (by decide) (by decide)
      (by decide) (by decide) (by decide) (by decide) (by decide)⟩

end BoltParse
